import Mathlib

/-!
Verification of the control-flow program environment of `ppo/control_flow/env.py`.

The development shallowly embeds the program data model (`Line`), the
transition compiler (`Env.get_transitions`), the resumable interpreter
(`Env.line_generator`), the program synthesizer (`Env.get_lines`) and the
episode step loop (`Env.generator`) as executable Lean functions, and proves
or refutes the specified properties about them.
-/

namespace ControlFlow

/-- Embeds the line vocabulary of `ppo/control_flow/lines.py` as used by
`env.py`: the control markers `If`, `Else`, `EndIf`, `While`, `EndWhile` and
`Padding` are bare tokens (the Python code compares them by class identity),
while `Subtask` instances carry an integer subtask id. -/
inductive Line where
  | If : Line
  | Else : Line
  | EndIf : Line
  | While : Line
  | EndWhile : Line
  | Padding : Line
  | Subtask (id : Nat) : Line
deriving DecidableEq, Repr

/-- True exactly on `Subtask` lines (Python `type(line) is Subtask`). -/
def Line.isSubtask : Line → Bool
  | .Subtask _ => true
  | _ => false

/-- The `id` attribute of a line: only `Subtask` instances have one
(Python `lines[active].id` raises `AttributeError` otherwise). -/
def Line.subtaskId : Line → Option Nat
  | .Subtask i => some i
  | _ => none

/-- Embeds `Env.get_transitions(lines_iter, previous)` (env.py:257-292).

The Python function is a recursive generator sharing one iterator across
frames; here each call returns the list of yielded `(from, to)` pairs
together with the part of the iterator left unconsumed when the frame
`return`s at its closing `EndIf`/`EndWhile`.  The first `Nat` argument is
fuel for the non-structural recursion (the wrapper `get_transitions` below
supplies enough); `none` models either fuel exhaustion or the `IndexError`
the Python code raises on `previous[-1]` with an empty `previous`. -/
def gtGo : Nat → List (Nat × Line) → List Nat →
    Option (List (Nat × Nat) × List (Nat × Line))
  | _, [], _ => some ([], [])
  | 0, _ :: _, _ => none
  | fuel + 1, (current, line) :: rest, previous =>
    match line with
    | Line.Subtask _ => do
      let (ts, rem) ← gtGo fuel rest previous
      pure ((current, current + 1) :: (current, current + 1) :: ts, rem)
    | Line.If => do
      let (ts, rem) ← gtGo fuel rest (previous ++ [current])
      let (ts2, rem2) ← gtGo fuel rem previous
      pure (ts ++ ts2, rem2)
    | Line.Else =>
      match previous.getLast? with
      | none => none
      | some prev => do
        let (ts, rem) ← gtGo fuel rest (previous.dropLast ++ [current])
        pure ((prev, current) :: (prev, prev + 1) :: ts, rem)
    | Line.EndIf =>
      match previous.getLast? with
      | none => none
      | some prev =>
        some ([(current, current + 1), (current, current + 1),
               (prev, current), (prev, prev + 1)], rest)
    | Line.While => do
      let (ts, rem) ← gtGo fuel rest (previous ++ [current])
      let (ts2, rem2) ← gtGo fuel rem previous
      pure (ts ++ ts2, rem2)
    | Line.EndWhile =>
      match previous.getLast? with
      | none => none
      | some prev =>
        some ([(prev, current + 1), (prev, prev + 1),
               (current, prev), (current, prev)], rest)
    | Line.Padding => gtGo fuel rest previous

/-- `Env.get_transitions(iter(enumerate(lines)), [])`: the full stream of
yielded `(from, to)` pairs, in yield order. -/
def get_transitions (lines : List Line) : Option (List (Nat × Nat)) :=
  (gtGo (lines.length + 1) lines.enum []).map (fun r => r.1)

/-- The dict `line_transitions` built in `Env.line_generator` (env.py:242-244):
`defaultdict(list)` with `line_transitions[_from].append(_to)` over the yield
stream, so looking up `i` gives all targets yielded for source `i`, in order. -/
def lineTransitions (ts : List (Nat × Nat)) (i : Nat) : List Nat :=
  (ts.filter (fun q => q.1 == i)).map (fun q => q.2)

/-- The suspended state of the `line_generator` coroutine: the current line
index `i` and the `if_evaluations` stack (appended at the end, popped from
the end, as the Python list is). -/
structure GenState where
  i : Nat
  if_evaluations : List Bool
deriving DecidableEq, Repr

/-- The effective condition the interpreter uses at the current line when
resumed with `bit` (env.py:249-252): at an `Else` it is the negation of the
popped top of `if_evaluations` (`IndexError`, hence `none`, when empty);
at every other line it is `bool(condition_bit)`. -/
def lgEval (lines : List Line) (s : GenState) (bit : Bool) : Option Bool :=
  match lines[s.i]? with
  | none => none
  | some line =>
    if line = Line.Else then
      (s.if_evaluations.getLast?).map (fun e => !e)
    else
      some bit

/-- One resumption of `Env.line_generator` (env.py:247-255) with input `bit`:
computes the effective evaluation, pops at `Else`, pushes at `If`, and moves
to `line_transitions[i][evaluation]`.  `none` models the crashes the Python
code would raise (resuming past the end, popping an empty stack, or indexing
an empty transition list). -/
def lgStep (lines : List Line) (ts : List (Nat × Nat)) (s : GenState)
    (bit : Bool) : Option GenState :=
  match lines[s.i]? with
  | none => none
  | some line => do
    let evaluation ← lgEval lines s bit
    let evals := if line = Line.Else then s.if_evaluations.dropLast
                 else s.if_evaluations
    let evals := if line = Line.If then evals ++ [evaluation] else evals
    let j ← (lineTransitions ts s.i)[if evaluation then 1 else 0]?
    pure ⟨j, evals⟩

/-- The value the suspended generator has just yielded:
`None if i >= len(lines) else i` (env.py:248). -/
def activeOf (lines : List Line) (s : GenState) : Option Nat :=
  if s.i < lines.length then some s.i else none

/-- The `while` loop of `next_subtask` (env.py:103-104): keep resuming the
line generator with the current condition bit until the yielded value is
`None` or a `Subtask` index.  The `Nat` argument is fuel (the loop can
diverge on programs whose loop bodies contain no reachable subtask). -/
def nstLoop (lines : List Line) (ts : List (Nat × Nat)) :
    Nat → GenState → Bool → Option GenState
  | 0, _, _ => none
  | fuel + 1, s, bit =>
    match lines[s.i]? with
    | none => some s
    | some line =>
      if line.isSubtask then some s
      else do
        let s2 ← lgStep lines ts s bit
        nstLoop lines ts fuel s2 bit

/-- `next_subtask(msg)` on an already-running generator (env.py:101-105):
one resumption with `msg`, then the continuation loop with the current
condition bit. -/
def nsAdvance (lines : List Line) (ts : List (Nat × Nat)) (fuel : Nat)
    (s : GenState) (msg contBit : Bool) : Option GenState := do
  let s2 ← lgStep lines ts s msg
  nstLoop lines ts fuel s2 contBit

/-- `next_subtask(None)` on a fresh generator: activation yields position 0
with an empty evaluation stack, then the continuation loop runs with the
initial condition bit. -/
def initCursor (lines : List Line) (ts : List (Nat × Nat)) (fuel : Nat)
    (bit : Bool) : Option GenState :=
  nstLoop lines ts fuel ⟨0, []⟩ bit

/-- How a driver supplies one resumption input to the interpreter when the
condition bits come from an oracle: `If` and `While` lines consume the next
oracle bit; every other line kind ignores its input (both successors of a
`Subtask`/`EndIf`/`EndWhile` coincide and `Else` ignores the sent bit), so a
dummy `false` is sent and the oracle is left untouched. -/
def takeBit (line : Line) (oracle : List Bool) : Option (Bool × List Bool) :=
  match line with
  | .If | .While =>
    match oracle with
    | [] => none
    | b :: r => some (b, r)
  | _ => some (false, oracle)

/-- Runs `line_generator` to completion from state `s`, supplying condition
bits from `oracle` at each `If`/`While`, and collects the yielded `Subtask`
indices in order; the run ends (with the done sentinel) when the yielded
position passes the end of the program.  Fuel-limited. -/
def lgRunO (lines : List Line) (ts : List (Nat × Nat)) :
    Nat → GenState → List Bool → Option (List Nat)
  | 0, _, _ => none
  | fuel + 1, s, oracle =>
    match lines[s.i]? with
    | none => some []
    | some line => do
      let (b, o2) ← takeBit line oracle
      let s2 ← lgStep lines ts s b
      let ys ← lgRunO lines ts fuel s2 o2
      pure (if line.isSubtask then s.i :: ys else ys)

/-- Full interpreter run from the initial state: builds the transition table
with `get_transitions` exactly as `line_generator` does, then drives the
cursor with the oracle. -/
def lgRun (lines : List Line) (fuel : Nat) (oracle : List Bool) :
    Option (List Nat) := do
  let ts ← get_transitions lines
  lgRunO lines ts fuel ⟨0, []⟩ oracle

/-! ### Structured programs (well-nested line sequences) -/

/-- The grammar of well-nested programs over the line vocabulary: a program
is a sequence of subtasks, `If…EndIf` blocks, `If…Else…EndIf` blocks and
`While…EndWhile` blocks, each with a well-nested body.  A list of lines is
well-nested exactly when it is `flatten` of some `Prog`. -/
inductive Prog where
  | nil : Prog
  | sub (id : Nat) (rest : Prog) : Prog
  | if1 (body rest : Prog) : Prog
  | if2 (thn els rest : Prog) : Prog
  | wh (body rest : Prog) : Prog
deriving DecidableEq, Repr

/-- Number of lines of the flattened program. -/
def sizeP : Prog → Nat
  | .nil => 0
  | .sub _ r => sizeP r + 1
  | .if1 b r => sizeP b + sizeP r + 2
  | .if2 t e r => sizeP t + sizeP e + sizeP r + 3
  | .wh b r => sizeP b + sizeP r + 2

/-- The flat line sequence of a structured program. -/
def flatten : Prog → List Line
  | .nil => []
  | .sub id r => .Subtask id :: flatten r
  | .if1 b r => .If :: (flatten b ++ .EndIf :: flatten r)
  | .if2 t e r => .If :: (flatten t ++ .Else :: (flatten e ++ .EndIf :: flatten r))
  | .wh b r => .While :: (flatten b ++ .EndWhile :: flatten r)

/-- Reference interpreter, per the specification: executes the structured
program conventionally (if/else/while semantics), consuming one oracle bit
per `If`/`While` condition evaluation, and returns the sequence of executed
subtask positions (`i` is the position of the first line) together with the
unconsumed oracle.  Fuel-limited since `While` may diverge. -/
def refRun : Nat → Nat → Prog → List Bool → Option (List Nat × List Bool)
  | 0, _, _, _ => none
  | _ + 1, _, .nil, oracle => some ([], oracle)
  | fuel + 1, i, .sub _ r, oracle => do
    let (ys, o2) ← refRun fuel (i + 1) r oracle
    pure (i :: ys, o2)
  | fuel + 1, i, .if1 b r, oracle =>
    match oracle with
    | [] => none
    | c :: o1 =>
      if c then do
        let (ys, o2) ← refRun fuel (i + 1) b o1
        let (ys2, o3) ← refRun fuel (i + 1 + sizeP b + 1) r o2
        pure (ys ++ ys2, o3)
      else refRun fuel (i + 1 + sizeP b + 1) r o1
  | fuel + 1, i, .if2 t e r, oracle =>
    match oracle with
    | [] => none
    | c :: o1 =>
      if c then do
        let (ys, o2) ← refRun fuel (i + 1) t o1
        let (ys2, o3) ← refRun fuel (i + 1 + sizeP t + 1 + sizeP e + 1) r o2
        pure (ys ++ ys2, o3)
      else do
        let (ys, o2) ← refRun fuel (i + 1 + sizeP t + 1) e o1
        let (ys2, o3) ← refRun fuel (i + 1 + sizeP t + 1 + sizeP e + 1) r o2
        pure (ys ++ ys2, o3)
  | fuel + 1, i, .wh b r, oracle =>
    match oracle with
    | [] => none
    | c :: o1 =>
      if c then do
        let (ys, o2) ← refRun fuel (i + 1) b o1
        let (ys2, o3) ← refRun fuel i (.wh b r) o2
        pure (ys ++ ys2, o3)
      else refRun fuel (i + 1 + sizeP b + 1) r o1

/-! ### The environment step loop (`Env.generator`, env.py:92-173) -/

/-- The configuration fields of `Env.__init__` that the base step loop
reads.  `no_op_limit = 0` models both Python `None` and `0` (both falsy in
`self.no_op_limit and n == self.no_op_limit`).  `terminate_on_failure` is
stored by `__init__` (env.py:44) and never read again anywhere in the
repository. -/
structure EnvConfig where
  num_subtasks : Nat
  time_limit : Nat
  evaluating : Bool
  no_op_limit : Nat
  terminate_on_failure : Bool
deriving DecidableEq, Repr

/-- The mutable episode state of `Env.generator`: the suspended interpreter
cursor, the failure flag, the step counter, the no-op counter `n`, the
condition bit (a 0/1 integer in the source), the definition-time default
`msg=condition_bit` of `next_subtask` (captured once, at the initial bit),
and the previous pointer.  `t` is the terminal flag computed after the
previous yield. -/
structure EpState where
  gs : GenState
  failing : Bool
  step : Nat
  n : Nat
  condition_bit : Nat
  init_bit : Nat
  prev : Nat
  t : Bool
deriving DecidableEq, Repr

/-- The reward of a yield: `r = int(t) * int(not failing)` (env.py:147). -/
def envReward (s : EpState) : Nat :=
  (if s.t then 1 else 0) * (if s.failing then 0 else 1)

/-- One pass of the `while True` body of `Env.generator` after receiving
`action` (env.py:152-173): computes the next terminal flag from the state
at the preceding yield, then processes the action.  A no-op increments `n`
(failing once `n` reaches a configured nonzero limit outside evaluation);
with a live active pointer, any other action is scored against the active
subtask id, the step counter advances, the condition bit is redrawn
(`abs(condition_bit - int(rand < flip_prob))`, the draw supplied as `flip`),
and the cursor is advanced by `next_subtask()` whose first resumption uses
the stale definition-time default bit. -/
def envProcess (cfg : EnvConfig) (lines : List Line) (ts : List (Nat × Nat))
    (fuel : Nat) (s : EpState) (action : Nat) (flip : Bool) : Option EpState :=
  let success : Bool := (activeOf lines s.gs).isNone
  let t2 : Bool := success || (!cfg.evaluating && decide (s.step = cfg.time_limit))
  if action = cfg.num_subtasks then
    some { s with
      t := t2
      n := s.n + 1
      failing := s.failing ||
        (!cfg.evaluating && decide (cfg.no_op_limit ≠ 0)
          && decide (s.n + 1 = cfg.no_op_limit)) }
  else
    match activeOf lines s.gs with
    | some a => do
      let line ← lines[a]?
      let id ← line.subtaskId
      let failing2 := s.failing || decide (action ≠ id)
      let bit2 := ((s.condition_bit : Int) - (if flip then 1 else 0)).natAbs
      let g2 ← nsAdvance lines ts fuel s.gs (decide (s.init_bit ≠ 0))
        (decide (bit2 ≠ 0))
      pure { s with
        t := t2
        failing := failing2
        step := s.step + 1
        condition_bit := bit2
        prev := a
        gs := g2 }
    | none => some { s with t := t2 }

/-- The start of an episode (env.py:92-108): the condition bit is drawn, the
transition table is compiled, and the cursor is advanced by
`next_subtask(None)` to the first subtask (or completion). -/
def initEpisode (lines : List Line) (fuel : Nat) (bit0 : Nat) :
    Option EpState := do
  let ts ← get_transitions lines
  let gs ← initCursor lines ts fuel (decide (bit0 ≠ 0))
  pure { gs := gs, failing := false, step := 0, n := 0, condition_bit := bit0,
         init_bit := bit0, prev := 0, t := false }

/-- The retry in `Env.generator` (env.py:109-110): if the freshly built
program completes without any active subtask, `yield from self.generator()`
starts over with the next drawn program.  The candidate list supplies the
successive `(lines, initial bit)` draws. -/
def resetModel (fuel : Nat) : List (List Line × Nat) → Option (List Line × EpState)
  | [] => none
  | (lines, bit0) :: restCands => do
    let s ← initEpisode lines fuel bit0
    match activeOf lines s.gs with
    | none => resetModel fuel restCands
    | some _ => pure (lines, s)

/-- The `active` field of the observation (env.py:300-304):
`self.n_lines if active is None else active`. -/
def obsActive (n_lines : Nat) (active : Option Nat) : Nat :=
  match active with
  | none => n_lines
  | some a => a

/-- Runs the step loop over a list of `(action, flip draw)` inputs and
returns the successive states at each yield. -/
def runEpisode (cfg : EnvConfig) (lines : List Line) (ts : List (Nat × Nat))
    (fuel : Nat) : EpState → List (Nat × Bool) → Option (List EpState)
  | _, [] => some []
  | s, (a, f) :: rest => do
    let s2 ← envProcess cfg lines ts fuel s a f
    let tl ← runEpisode cfg lines ts fuel s2 rest
    pure (s2 :: tl)

/-! ### The program synthesizer (`Env.get_lines`, env.py:198-239) -/

/-- Line *types*, the values `get_lines` manipulates: in the source these
are the bare classes (`Subtask` included, without an id — ids are assigned
afterwards by `build_lines`). -/
inductive LineType where
  | If : LineType
  | Else : LineType
  | EndIf : LineType
  | While : LineType
  | EndWhile : LineType
  | Subtask : LineType
  | Padding : LineType
deriving DecidableEq, Repr

/-- Entries of the `active_conditions` stack: the source only ever appends
`If`/`While` and replaces the top with `Else`, so the stack alphabet is
exactly these three. -/
inductive Cond where
  | If : Cond
  | Else : Cond
  | While : Cond
deriving DecidableEq, Repr

/-- The class attribute `pairs = {If: EndIf, Else: EndIf, While: EndWhile}`
(env.py:20), restricted to the stack alphabet on which it is consulted. -/
def pairs : Cond → LineType
  | .If => .EndIf
  | .Else => .EndIf
  | .While => .EndWhile

/-- The line type pushed on `active_conditions` for an opened block. -/
def condOf : LineType → Option Cond
  | .If => some .If
  | .While => some .While
  | _ => none

/-- The `active_conditions` update of `get_lines` (env.py:224-230): openers
are appended, `Else` replaces the top, closers pop it. -/
def nextActive (line_type : LineType) (active : List Cond) : List Cond :=
  match line_type with
  | .If => active ++ [Cond.If]
  | .While => active ++ [Cond.While]
  | .Else => active.dropLast ++ [Cond.Else]
  | .EndIf => active.dropLast
  | .EndWhile => active.dropLast
  | _ => active

/-- The `nesting_depth` update of `get_lines` (env.py:224-231). -/
def nextDepth (line_type : LineType) (depth : Int) : Int :=
  match line_type with
  | .If => depth + 1
  | .While => depth + 1
  | .EndIf => depth - 1
  | .EndWhile => depth - 1
  | _ => depth

/-- `Env.get_lines(n, active_conditions, last, nesting_depth,
max_nesting_depth)` (env.py:198-239).  `choice k` resolves the `k`-th call
to `self.random.choice(line_types)`: the element at index
`choice k % len(line_types)` is picked, so every choice function realizes
some sequence of draws and every draw sequence is realized by some choice
function.  The recursion is structural in `n` (the source decrements `n` by
one per emitted line). -/
def get_lines (choice : Nat → Nat) :
    Nat → Nat → List Cond → Option LineType → Int → Option Int → List LineType
  | _, 0, _, _, _, _ => []
  | k, n + 1, active_conditions, last, nesting_depth, max_nesting_depth =>
    if n + 1 = active_conditions.length then
      (active_conditions.reverse.map pairs)
        ++ List.replicate (n + 1 - active_conditions.length) .Subtask
    else if n = 0 then [.Subtask]
    else
      let line_types : List LineType :=
        [.Subtask]
        ++ (if decide (active_conditions.length + 2 < n + 1)
              && (match max_nesting_depth with
                  | none => true
                  | some m => decide (nesting_depth < m)) then
              [LineType.If, LineType.While]
            else [])
        ++ (if active_conditions ≠ [] ∧ last = some .Subtask then
              match active_conditions.getLast? with
              | some .If => [.Else, .EndIf]
              | some .Else => [.EndIf]
              | some .While => [.EndWhile]
              | none => []
            else [])
      let line_type := line_types.getD (choice k % line_types.length) .Subtask
      line_type :: get_lines choice (k + 1) n (nextActive line_type active_conditions)
        (some line_type) (nextDepth line_type nesting_depth) max_nesting_depth

/-- Structural well-nestedness of a line-type sequence, checked with an
explicit stack of open blocks: every `If` is closed by exactly one matching
`EndIf` with at most one `Else` in between (an `Else` is legal only when the
innermost open block is an `If` not yet given an `Else`), every `While` by
exactly one matching `EndWhile`, blocks never cross, and at the end every
block is closed. -/
def balancedFrom : List Cond → List LineType → Bool
  | [], [] => true
  | _ :: _, [] => false
  | stack, .Subtask :: rest => balancedFrom stack rest
  | stack, .If :: rest => balancedFrom (Cond.If :: stack) rest
  | stack, .While :: rest => balancedFrom (Cond.While :: stack) rest
  | Cond.If :: s, .Else :: rest => balancedFrom (Cond.Else :: s) rest
  | Cond.If :: s, .EndIf :: rest => balancedFrom s rest
  | Cond.Else :: s, .EndIf :: rest => balancedFrom s rest
  | Cond.While :: s, .EndWhile :: rest => balancedFrom s rest
  | _, _ => false

/-- One loop iteration of `Env.get_nesting_depth` (env.py:355-365): the
state is `(depth, max_depth)`; the depth rises at `If`/`While`, falls at
`EndIf`/`EndWhile`, and the running maximum is updated. -/
def ndStep (st : Int × Int) (line : LineType) : Int × Int :=
  let depth := st.1
    + (if line = LineType.If ∨ line = LineType.While then 1 else 0)
    - (if line = LineType.EndIf ∨ line = LineType.EndWhile then 1 else 0)
  (depth, max depth st.2)

/-- `Env.get_nesting_depth(lines)` (env.py:355-365), applied to a line-type
sequence. -/
def get_nesting_depth (lines : List LineType) : Int :=
  (lines.foldl ndStep (0, 0)).2

/-! ### Per-line successor pairs of a well-nested program -/

/-- For a well-nested program laid out from offset `i`, the successor pairs
`(owner, false-successor, true-successor)` in the order the owner's two
yields appear in the `get_transitions` stream.  The entries transcribe the
specified successor rules: a `Subtask` or `EndIf` at `j` advances to `j+1`
on both branches; an `If` at `j` with matching `Else` at `e` (or, without
one, matching `EndIf` at `f`) has false-successor `e` (resp. `f`) and
true-successor `j+1`; an `Else` at `e` with matching `EndIf` at `f` has
false-successor `f` and true-successor `e+1`; a `While` at `j` with
matching `EndWhile` at `f` has false-successor `f+1` and true-successor
`j+1`; an `EndWhile` at `f` has both successors equal to its `While`'s
index `j`. -/
def pairsOf : Nat → Prog → List (Nat × Nat × Nat)
  | _, .nil => []
  | i, .sub _ r => (i, i + 1, i + 1) :: pairsOf (i + 1) r
  | i, .if1 b r =>
    let f := i + 1 + sizeP b
    pairsOf (i + 1) b ++ [(f, f + 1, f + 1), (i, f, i + 1)] ++ pairsOf (f + 1) r
  | i, .if2 t e r =>
    let el := i + 1 + sizeP t
    let f := el + 1 + sizeP e
    pairsOf (i + 1) t ++ [(i, el, i + 1)] ++ pairsOf (el + 1) e
      ++ [(f, f + 1, f + 1), (el, f, el + 1)] ++ pairsOf (f + 1) r
  | i, .wh b r =>
    let f := i + 1 + sizeP b
    pairsOf (i + 1) b ++ [(i, f + 1, i + 1), (f, i, i)] ++ pairsOf (f + 1) r

/-- The `get_transitions` yield stream predicted for a well-nested program:
each owner's false-successor yield immediately followed by its
true-successor yield, in `pairsOf` order. -/
def streamOf (i : Nat) (p : Prog) : List (Nat × Nat) :=
  (pairsOf i p).flatMap (fun q => [(q.1, q.2.1), (q.1, q.2.2)])

/-- All `(While index, matching EndWhile index)` position pairs of the
program, nested loops included. -/
def whileOcc : Nat → Prog → List (Nat × Nat)
  | _, .nil => []
  | i, .sub _ r => whileOcc (i + 1) r
  | i, .if1 b r => whileOcc (i + 1) b ++ whileOcc (i + 1 + sizeP b + 1) r
  | i, .if2 t e r =>
    whileOcc (i + 1) t ++ whileOcc (i + 1 + sizeP t + 1) e
      ++ whileOcc (i + 1 + sizeP t + 1 + sizeP e + 1) r
  | i, .wh b r =>
    (i, i + 1 + sizeP b) :: (whileOcc (i + 1) b ++ whileOcc (i + 1 + sizeP b + 1) r)

/-! ### Concrete fixtures -/

/-- A well-nested program with an `Else`-less `If` block nested in the
then-branch of an `If…Else…EndIf` block:
`[If, If, Subtask 10, EndIf, Subtask 11, Else, Subtask 12, EndIf]`. -/
def progA : Prog := .if2 (.if1 (.sub 10 .nil) (.sub 11 .nil)) (.sub 12 .nil) .nil

/-- The flattened line sequence of `progA`. -/
def linesA : List Line := flatten progA

/-- The transition stream `get_transitions` yields for `linesA`. -/
def tableA : List (Nat × Nat) :=
  [(2, 3), (2, 3), (3, 4), (3, 4), (1, 3), (1, 2), (4, 5), (4, 5), (0, 5),
   (0, 1), (6, 7), (6, 7), (7, 8), (7, 8), (5, 7), (5, 6)]

/-- The one-line-body loop program `[While, Subtask 1, EndWhile]`. -/
def progW : Prog := .wh (.sub 1 .nil) .nil

/-- The flattened line sequence of `progW`. -/
def linesW : List Line := flatten progW

/-- The transition stream `get_transitions` yields for `linesW`. -/
def tableW : List (Nat × Nat) := [(1, 2), (1, 2), (0, 3), (0, 1), (2, 0), (2, 0)]

/-- A two-subtask straight-line program. -/
def lines5 : List Line := [.Subtask 0, .Subtask 1]

/-- The transition stream `get_transitions` yields for `lines5`. -/
def table5 : List (Nat × Nat) := [(0, 1), (0, 1), (1, 2), (1, 2)]

/-- Base configuration with `terminate_on_failure` set. -/
def cfg5 : EnvConfig :=
  { num_subtasks := 2, time_limit := 100, evaluating := false,
    no_op_limit := 0, terminate_on_failure := true }

/-- Base configuration with a time limit of one step. -/
def cfg4 : EnvConfig :=
  { num_subtasks := 2, time_limit := 1, evaluating := false,
    no_op_limit := 0, terminate_on_failure := false }

/-- The episode state right after `reset` on `lines5` with initial bit 1. -/
def s50val : EpState :=
  { gs := ⟨0, []⟩, failing := false, step := 0, n := 0, condition_bit := 1,
    init_bit := 1, prev := 0, t := false }

/-- The episode state right after `reset` on `linesW` with initial bit 1. -/
def s40val : EpState :=
  { gs := ⟨1, []⟩, failing := false, step := 0, n := 0, condition_bit := 1,
    init_bit := 1, prev := 0, t := false }

/-! ### Claim theorems: interpreter divergence (C1, C3) -/

/-- Claim C1: the claim asserts that for every well-nested program the
interpreter's yielded subtask sequence equals a conventional reference
interpreter's.  The code violates this.  On `progA` with the ground truth
"outer If true, inner If false", the interpreter pushes an evaluation for
the `Else`-less inner `If` that is never popped, so on reaching the `Else`
at index 5 it pops the inner `If`'s `false` instead of the outer `If`'s
`true`, computes effective condition `true`, and executes the `Else` body:
it yields subtask indices `[4, 6]`, while the reference execution yields
`[4]` (outer condition true means the `Else` body must be skipped). -/
theorem c1_interpreter_diverges_from_reference :
    flatten progA = [Line.If, Line.If, Line.Subtask 10, Line.EndIf,
      Line.Subtask 11, Line.Else, Line.Subtask 12, Line.EndIf] ∧
    lgRun (flatten progA) 20 [true, false] = some [4, 6] ∧
    refRun 20 0 progA [true, false] = some ([4], []) := by
  exact ⟨by decide, by decide, by decide⟩

/-- Claim C3: the claim asserts that whenever control reaches an `Else`,
the effective condition is the negation of the truth value recorded for
that `Else`'s paired `If`.  The code violates this.  In `linesA`, the
`Else` at index 5 is paired with the `If` at index 0 (whose block spans
0..7); the reachable trace below evaluates the `If` at 0 to `true` and the
`Else`-less inner `If` at 1 to `false`, reaching the `Else` with evaluation
stack `[true, false]`.  The interpreter pops the unpaired inner entry and
uses effective condition `not false = true` — not the negation
`not true = false` of the paired `If`'s recorded value — and moves into
the `Else` body (index 6) instead of to the `EndIf` (index 7). -/
theorem c3_else_uses_unpaired_evaluation :
    get_transitions linesA = some tableA ∧
    lgStep linesA tableA ⟨0, []⟩ true = some ⟨1, [true]⟩ ∧
    lgStep linesA tableA ⟨1, [true]⟩ false = some ⟨3, [true, false]⟩ ∧
    lgStep linesA tableA ⟨3, [true, false]⟩ false = some ⟨4, [true, false]⟩ ∧
    lgStep linesA tableA ⟨4, [true, false]⟩ false = some ⟨5, [true, false]⟩ ∧
    linesA[5]? = some Line.Else ∧
    lgEval linesA ⟨5, [true, false]⟩ false = some true ∧
    lgStep linesA tableA ⟨5, [true, false]⟩ false = some ⟨6, [true]⟩ ∧
    lineTransitions tableA 5 = [7, 6] := by
  refine ⟨by decide, by decide, by decide, by decide, by decide, by decide,
    by decide, by decide, by decide⟩

/-! ### Claim theorems: rewards and termination (C4, C5) -/

/-- Counterexample to claim C4 as stated: the claim says a step where the
episode ends by exceeding the time limit returns reward 0.  In `cfg4`
(time limit 1) on the loop program `linesW` with the condition bit stuck at
1, the agent answers subtask 1 correctly twice; the second step ends the
episode because `step == time_limit`, with the failing flag unset and the
program not completed (`active` is still line 1), and its reward is 1. -/
theorem c4_timeout_returns_reward_one :
    initEpisode linesW 10 1 = some s40val ∧
    runEpisode cfg4 linesW tableW 10 s40val [(1, false), (1, false)] =
      some [{ s40val with step := 1, prev := 1 },
            { s40val with step := 2, prev := 1, t := true }] ∧
    ({ s40val with step := 2, prev := 1, t := true } : EpState).t = true ∧
    ({ s40val with step := 2, prev := 1, t := true } : EpState).failing = false ∧
    activeOf linesW ({ s40val with step := 2, prev := 1, t := true } : EpState).gs
      = some 1 ∧
    envReward { s40val with step := 2, prev := 1, t := true } = 1 := by
  refine ⟨by decide, by decide, by decide, by decide, by decide, by decide⟩

/-- Claim C4 (amended): along every episode trajectory, a step's reward is
1 exactly when its terminal flag is true and the failing flag is false, and
it is never anything other than 0 or 1 (so never negative); the clause of
the claim saying a timeout-ending step returns 0 is dropped (see the
counterexample: a timeout without failure returns 1). -/
theorem c4_reward_iff_terminal_and_not_failing
    (cfg : EnvConfig) (lines : List Line) (ts : List (Nat × Nat)) (fuel : Nat)
    (s0 : EpState) (inputs : List (Nat × Bool)) (states : List EpState)
    (_h : runEpisode cfg lines ts fuel s0 inputs = some states) :
    ∀ s2 ∈ s0 :: states,
      (envReward s2 = 1 ↔ (s2.t = true ∧ s2.failing = false)) ∧
      envReward s2 ≤ 1 := by
  intro s2 _
  unfold envReward
  cases ht : s2.t <;> cases hf : s2.failing <;> simp

/-- Witness for the amended C4 theorem at a concrete episode. -/
theorem c4_reward_witness :
    (envReward { s40val with step := 2, prev := 1, t := true } = 1 ↔
      (({ s40val with step := 2, prev := 1, t := true } : EpState).t = true ∧
       ({ s40val with step := 2, prev := 1, t := true } : EpState).failing = false)) ∧
    envReward { s40val with step := 2, prev := 1, t := true } ≤ 1 :=
  c4_reward_iff_terminal_and_not_failing cfg4 linesW tableW 10 s40val
    [(1, false), (1, false)]
    [{ s40val with step := 1, prev := 1 },
     { s40val with step := 2, prev := 1, t := true }]
    (by decide) { s40val with step := 2, prev := 1, t := true } (by simp)

/-- Claim C5: the claim says that with `terminate_on_failure` configured, a
wrong first subtask selection makes the episode terminal with reward 0.
The code stores `terminate_on_failure` but never reads it: the wrong
selection only sets the failing flag, and the step is *not* terminal — the
episode continues with the pointer advanced to line 1.  (The second half of
the claim holds: answering every subtask correctly ends the episode,
one step after the last subtask, with reward 1.) -/
theorem c5_failure_does_not_terminate :
    cfg5.terminate_on_failure = true ∧
    initEpisode lines5 10 1 = some s50val ∧
    envProcess cfg5 lines5 table5 10 s50val 1 false =
      some { s50val with gs := ⟨1, []⟩, failing := true, step := 1 } ∧
    ({ s50val with gs := ⟨1, []⟩, failing := true, step := 1 } : EpState).t
      = false ∧
    activeOf lines5 (⟨1, []⟩ : GenState) = some 1 ∧
    envReward { s50val with gs := ⟨1, []⟩, failing := true, step := 1 } = 0 ∧
    runEpisode cfg5 lines5 table5 10 s50val [(0, false), (1, false), (0, false)] =
      some [{ s50val with gs := ⟨1, []⟩, step := 1 },
            { s50val with gs := ⟨2, []⟩, step := 2, prev := 1 },
            { s50val with gs := ⟨2, []⟩, step := 2, prev := 1, t := true }] ∧
    envReward { s50val with gs := ⟨2, []⟩, step := 2, prev := 1, t := true } = 1 := by
  refine ⟨by decide, by decide, by decide, by decide, by decide, by decide,
    by decide, by decide⟩

/-! ### Claim theorems: step-effect frame properties (C9, C10) -/

/-- Claim C9: when the active pointer is a valid subtask line and the agent
selects a non-no-op id different from the active line's id, the resulting
state is exactly the state a correct selection would produce, except that
the failing flag is set: same step increment, same condition-bit redraw,
same pointer advance. -/
theorem c9_wrong_subtask_only_sets_failing
    (cfg : EnvConfig) (lines : List Line) (ts : List (Nat × Nat)) (fuel : Nat)
    (s : EpState) (flip : Bool) (action a id : Nat)
    (ha : activeOf lines s.gs = some a)
    (hline : lines[a]? = some (Line.Subtask id))
    (hnoop : action ≠ cfg.num_subtasks)
    (hid : id ≠ cfg.num_subtasks)
    (hwrong : action ≠ id) :
    envProcess cfg lines ts fuel s action flip =
      (envProcess cfg lines ts fuel s id flip).map
        (fun s2 => { s2 with failing := true }) := by
  unfold envProcess
  rw [if_neg hnoop, if_neg hid, ha]
  simp only [hline, Option.some_bind, Line.subtaskId]
  cases hadv : nsAdvance lines ts fuel s.gs (decide (s.init_bit ≠ 0))
      (decide ((((s.condition_bit : Int) - if flip then 1 else 0).natAbs : Nat) ≠ 0)) with
  | none => simp
  | some g2 => simp [hwrong]

/-- Witness for C9 at a concrete state: on `lines5` from the reset state,
selecting 1 instead of the active line's id 0. -/
theorem c9_witness :
    envProcess cfg5 lines5 table5 10 s50val 1 false =
      (envProcess cfg5 lines5 table5 10 s50val 0 false).map
        (fun s2 => { s2 with failing := true }) :=
  c9_wrong_subtask_only_sets_failing cfg5 lines5 table5 10 s50val false 1 0 0
    (by decide) (by decide) (by decide) (by decide) (by decide)

/-- Claim C10: a no-op action (`action = num_subtasks`) leaves the cursor,
the condition bit, the step counter and the previous pointer unchanged and
increments only the no-op counter, with the failing flag becoming set
exactly when the cumulative count reaches a configured nonzero
`no_op_limit` outside evaluation; and no non-no-op action ever changes the
no-op counter (it is cumulative across the episode). -/
theorem c10_noop_increments_only_counter
    (cfg : EnvConfig) (lines : List Line) (ts : List (Nat × Nat)) (fuel : Nat)
    (s : EpState) (flip : Bool) :
    (∃ s3, envProcess cfg lines ts fuel s cfg.num_subtasks flip = some s3 ∧
      s3.gs = s.gs ∧ s3.condition_bit = s.condition_bit ∧ s3.step = s.step ∧
      s3.prev = s.prev ∧ s3.n = s.n + 1 ∧
      s3.failing = (s.failing ||
        (!cfg.evaluating && decide (cfg.no_op_limit ≠ 0)
          && decide (s.n + 1 = cfg.no_op_limit)))) ∧
    (∀ action flip2 s2, action ≠ cfg.num_subtasks →
      envProcess cfg lines ts fuel s action flip2 = some s2 → s2.n = s.n) := by
  constructor
  · refine ⟨{ s with
      t := (activeOf lines s.gs).isNone
        || (!cfg.evaluating && decide (s.step = cfg.time_limit))
      n := s.n + 1
      failing := s.failing ||
        (!cfg.evaluating && decide (cfg.no_op_limit ≠ 0)
          && decide (s.n + 1 = cfg.no_op_limit)) }, ?_, rfl, rfl, rfl, rfl, rfl, rfl⟩
    unfold envProcess
    rw [if_pos rfl]
  · intro action flip2 s2 hne h2
    unfold envProcess at h2
    rw [if_neg hne] at h2
    split at h2
    · obtain ⟨line, _, h2⟩ := Option.bind_eq_some.mp h2
      obtain ⟨id2, _, h2⟩ := Option.bind_eq_some.mp h2
      obtain ⟨g2, _, h2⟩ := Option.bind_eq_some.mp h2
      obtain rfl := Option.some_inj.mp h2
      rfl
    · cases h2; rfl

/-- Witness for C10 at a concrete state: a no-op (action 2) on `lines5`. -/
theorem c10_witness :
    (∃ s3, envProcess cfg5 lines5 table5 10 s50val cfg5.num_subtasks false
        = some s3 ∧
      s3.gs = s50val.gs ∧ s3.condition_bit = s50val.condition_bit ∧
      s3.step = s50val.step ∧ s3.prev = s50val.prev ∧ s3.n = s50val.n + 1 ∧
      s3.failing = (s50val.failing ||
        (!cfg5.evaluating && decide (cfg5.no_op_limit ≠ 0)
          && decide (s50val.n + 1 = cfg5.no_op_limit)))) ∧
    (∀ action flip2 s2, action ≠ cfg5.num_subtasks →
      envProcess cfg5 lines5 table5 10 s50val action flip2 = some s2 →
      s2.n = s50val.n) :=
  c10_noop_increments_only_counter cfg5 lines5 table5 10 s50val false

/-! ### Claim theorem: reset invariant (C8) -/

/-- When the `next_subtask` continuation loop stops, the yielded position is
either past the end of the program or a `Subtask` line. -/
theorem nstLoop_stops (lines : List Line) (ts : List (Nat × Nat)) :
    ∀ (fuel : Nat) (s : GenState) (bit : Bool) (g2 : GenState),
      nstLoop lines ts fuel s bit = some g2 →
      lines[g2.i]? = none ∨ ∃ id, lines[g2.i]? = some (Line.Subtask id) := by
  intro fuel
  induction fuel with
  | zero => intro s bit g2 h; cases h
  | succ fu ih =>
    intro s bit g2 h
    unfold nstLoop at h
    split at h
    · rename_i hl
      cases h
      exact Or.inl hl
    · rename_i line hl
      by_cases hsub : line.isSubtask = true
      · rw [if_pos hsub] at h
        cases h
        right
        cases line with
        | Subtask id => exact ⟨id, hl⟩
        | _ => exact absurd hsub (by decide)
      · rw [if_neg hsub] at h
        obtain ⟨s2, _, h⟩ := Option.bind_eq_some.mp h
        exact ih s2 bit g2 h

/-- Claim C8: whenever the modelled `reset` (program draws retried until the
initial `next_subtask(None)` finds a subtask) returns an episode, the active
pointer is a valid index of a `Subtask` line of the returned program, and
the observation's `active` field equals that index and is never the
past-the-end sentinel `n_lines` (for any `n_lines` at least the program
length, as `n_lines = max_lines + 1` always is). -/
theorem c8_reset_active_is_subtask
    (fuel : Nat) (cands : List (List Line × Nat)) (lines : List Line)
    (s : EpState) (h : resetModel fuel cands = some (lines, s)) :
    ∃ a, activeOf lines s.gs = some a ∧ a < lines.length ∧
      (∃ id, lines[a]? = some (Line.Subtask id)) ∧
      ∀ n_lines, lines.length ≤ n_lines →
        obsActive n_lines (activeOf lines s.gs) = a ∧ a ≠ n_lines := by
  induction cands with
  | nil => cases h
  | cons cand rest ih =>
    obtain ⟨cl, cbit⟩ := cand
    unfold resetModel at h
    obtain ⟨s1, hinit, h⟩ := Option.bind_eq_some.mp h
    cases hact : activeOf cl s1.gs with
    | none =>
      rw [hact] at h
      exact ih h
    | some a =>
      rw [hact] at h
      have h2 : (cl, s1) = (lines, s) := Option.some_inj.mp h
      injection h2 with h3 h4
      subst h3
      subst h4
      unfold initEpisode at hinit
      obtain ⟨ts, hts, hinit⟩ := Option.bind_eq_some.mp hinit
      obtain ⟨g2, hcur, hinit⟩ := Option.bind_eq_some.mp hinit
      have hrec := Option.some_inj.mp hinit
      subst hrec
      have hstop := nstLoop_stops cl ts fuel ⟨0, []⟩ (decide (cbit ≠ 0)) g2 hcur
      have hai : g2.i = a ∧ g2.i < cl.length := by
        unfold activeOf at hact
        by_cases hlt : g2.i < cl.length
        · rw [if_pos hlt] at hact
          exact ⟨Option.some_inj.mp hact, hlt⟩
        · rw [if_neg hlt] at hact
          cases hact
      refine ⟨a, hact, by omega, ?_, ?_⟩
      · rcases hstop with hnone | ⟨id, hsome⟩
        · rw [List.getElem?_eq_none_iff] at hnone
          omega
        · exact ⟨id, hai.1 ▸ hsome⟩
      · intro n_lines hle
        rw [hact]
        exact ⟨rfl, by omega⟩

/-- Witness for C8 on a concrete candidate list whose first program
completes with no subtask under the initial bit (so it is discarded) and
whose second program starts at a subtask. -/
theorem c8_witness :
    ∃ a, activeOf [Line.Subtask 7]
        ({ gs := ⟨0, []⟩, failing := false, step := 0, n := 0,
           condition_bit := 1, init_bit := 1, prev := 0, t := false } : EpState).gs
        = some a ∧
      a < [Line.Subtask 7].length ∧
      (∃ id, [Line.Subtask 7][a]? = some (Line.Subtask id)) ∧
      ∀ n_lines, [Line.Subtask 7].length ≤ n_lines →
        obsActive n_lines (activeOf [Line.Subtask 7]
          ({ gs := ⟨0, []⟩, failing := false, step := 0, n := 0,
             condition_bit := 1, init_bit := 1, prev := 0, t := false } : EpState).gs)
          = a ∧ a ≠ n_lines :=
  c8_reset_active_is_subtask 10
    [([Line.If, Line.Subtask 3, Line.EndIf], 0), ([Line.Subtask 7], 1)]
    [Line.Subtask 7]
    { gs := ⟨0, []⟩, failing := false, step := 0, n := 0, condition_bit := 1,
      init_bit := 1, prev := 0, t := false }
    (by decide)

/-! ### Claim C7: well-formedness of synthesized programs -/

/-- A nonempty list is its dropLast extended by its last element. -/
theorem getLast?_decomp {α : Type} (l : List α) (c : α) (h : l.getLast? = some c) :
    l = l.dropLast ++ [c] := by
  induction l using List.reverseRecOn with
  | nil => cases h
  | append_singleton as a _ =>
    rw [List.getLast?_concat] at h
    cases h
    rw [List.dropLast_concat]

/-- Emitting, for each open block from the innermost out, its closing token
yields a balanced suffix. -/
theorem balancedFrom_closers : ∀ s : List Cond, balancedFrom s (s.map pairs) = true
  | [] => rfl
  | c :: s' => by
    cases c <;> simpa [balancedFrom, pairs] using balancedFrom_closers s'

set_option maxHeartbeats 1600000 in
/-- In the recursive case of `get_lines` (not the base cases), the emitted
head is drawn from the legal candidate list and the tail is the recursive
call on the updated stack and depth. -/
theorem get_lines_step (choice : Nat → Nat) (k m : Nat) (active : List Cond)
    (last : Option LineType) (depth : Int) (maxd : Option Int)
    (h1 : m + 1 ≠ active.length) (h2 : m ≠ 0) :
    ∃ lt, get_lines choice k (m + 1) active last depth maxd
        = lt :: get_lines choice (k + 1) m (nextActive lt active) (some lt)
            (nextDepth lt depth) maxd
      ∧ (lt = LineType.Subtask
         ∨ ((decide (active.length + 2 < m + 1)
              && (match maxd with
                  | none => true
                  | some mm => decide (depth < mm))) = true
             ∧ (lt = LineType.If ∨ lt = LineType.While))
         ∨ (active ≠ [] ∧ last = some LineType.Subtask
             ∧ ((active.getLast? = some Cond.If
                  ∧ (lt = LineType.Else ∨ lt = LineType.EndIf))
                ∨ (active.getLast? = some Cond.Else ∧ lt = LineType.EndIf)
                ∨ (active.getLast? = some Cond.While ∧ lt = LineType.EndWhile)))) := by
  set cond1 : Bool := decide (active.length + 2 < m + 1)
    && (match maxd with
        | none => true
        | some mm => decide (depth < mm)) with hcond1
  set seg2 : List LineType := if cond1 = true then [LineType.If, LineType.While] else []
    with hseg2
  set seg3 : List LineType :=
    if active ≠ [] ∧ last = some LineType.Subtask then
      match active.getLast? with
      | some Cond.If => [LineType.Else, LineType.EndIf]
      | some Cond.Else => [LineType.EndIf]
      | some Cond.While => [LineType.EndWhile]
      | none => []
    else [] with hseg3
  set lts : List LineType := [LineType.Subtask] ++ seg2 ++ seg3 with hlts
  have hlen : 0 < lts.length := by
    rw [hlts]
    simp
  have hidx : choice k % lts.length < lts.length := Nat.mod_lt _ hlen
  set lt : LineType := lts.getD (choice k % lts.length) LineType.Subtask with hlt
  have hmem : lt ∈ lts := by
    rw [hlt, List.getD_eq_getElem lts LineType.Subtask hidx]
    exact List.getElem_mem hidx
  have heq : get_lines choice k (m + 1) active last depth maxd
      = lt :: get_lines choice (k + 1) m (nextActive lt active) (some lt)
          (nextDepth lt depth) maxd := by
    conv_lhs => rw [get_lines.eq_def]
    dsimp only
    rw [if_neg h1, if_neg h2]
  refine ⟨lt, heq, ?_⟩
  rw [hlts] at hmem
  rcases List.mem_append.mp hmem with hmem12 | hmem3
  · rcases List.mem_append.mp hmem12 with hmem1 | hmem2
    · left
      simpa using hmem1
    · right; left
      by_cases hc : cond1 = true
      · rw [hseg2, if_pos hc] at hmem2
        refine ⟨hc, ?_⟩
        simpa using hmem2
      · rw [hseg2, if_neg hc] at hmem2
        cases hmem2
  · right; right
    by_cases hg : active ≠ [] ∧ last = some LineType.Subtask
    · refine ⟨hg.1, hg.2, ?_⟩
      rw [hseg3, if_pos hg] at hmem3
      cases hgl : active.getLast? with
      | none => rw [hgl] at hmem3; cases hmem3
      | some c =>
        rw [hgl] at hmem3
        cases c with
        | If => exact Or.inl ⟨rfl, by simpa using hmem3⟩
        | Else => exact Or.inr (Or.inl ⟨rfl, by simpa using hmem3⟩)
        | While => exact Or.inr (Or.inr ⟨rfl, by simpa using hmem3⟩)
    · rw [hseg3, if_neg hg] at hmem3
      cases hmem3

/-- `get_lines` emits exactly `n` lines, whatever the other arguments. -/
theorem get_lines_length (choice : Nat → Nat) :
    ∀ (n k : Nat) (active : List Cond) (last : Option LineType)
      (depth : Int) (maxd : Option Int),
      (get_lines choice k n active last depth maxd).length = n := by
  intro n
  induction n with
  | zero => intro k active last depth maxd; rfl
  | succ m ih =>
    intro k active last depth maxd
    by_cases h1 : m + 1 = active.length
    · unfold get_lines
      rw [if_pos h1]
      simp only [List.length_append, List.length_map, List.length_reverse,
        List.length_replicate]
      omega
    · by_cases h2 : m = 0
      · subst h2
        unfold get_lines
        rw [if_neg h1, if_pos rfl]
        rfl
      · obtain ⟨lt, heq, _⟩ := get_lines_step choice k m active last depth maxd h1 h2
        rw [heq]
        simp only [List.length_cons, ih]

/-- `get_lines` output closes every open block correctly: starting from the
stack of currently open conditions, the emitted lines are balanced. -/
theorem get_lines_balanced (choice : Nat → Nat) :
    ∀ (n k : Nat) (active : List Cond) (last : Option LineType)
      (depth : Int) (maxd : Option Int),
      active.length ≤ n →
      balancedFrom active.reverse (get_lines choice k n active last depth maxd)
        = true := by
  intro n
  induction n with
  | zero =>
    intro k active last depth maxd hle
    rw [List.length_eq_zero.mp (by omega : active.length = 0)]
    rfl
  | succ m ih =>
    intro k active last depth maxd hle
    by_cases h1 : m + 1 = active.length
    · unfold get_lines
      rw [if_pos h1]
      have hz : m + 1 - active.length = 0 := by omega
      rw [hz]
      simp only [List.replicate_zero, List.append_nil]
      exact balancedFrom_closers active.reverse
    · by_cases h2 : m = 0
      · subst h2
        have hz : active = [] := List.length_eq_zero.mp (by omega)
        subst hz
        unfold get_lines
        rw [if_neg h1, if_pos rfl]
        rfl
      · obtain ⟨lt, heq, hcases⟩ :=
          get_lines_step choice k m active last depth maxd h1 h2
        rw [heq]
        have hlem : active.length ≤ m := by omega
        rcases hcases with rfl | ⟨hg, hio⟩ | ⟨_, _, hrest⟩
        · simp only [balancedFrom, nextActive]
          exact ih (k + 1) active (some .Subtask) (nextDepth .Subtask depth) maxd hlem
        · have hglen : active.length + 2 < m + 1 := by
            simp only [Bool.and_eq_true, decide_eq_true_eq] at hg
            exact hg.1
          rcases hio with rfl | rfl
          · simp only [balancedFrom, nextActive]
            have := ih (k + 1) (active ++ [Cond.If]) (some .If)
              (nextDepth .If depth) maxd (by simp; omega)
            rwa [List.reverse_append, List.reverse_singleton,
              List.singleton_append] at this
          · simp only [balancedFrom, nextActive]
            have := ih (k + 1) (active ++ [Cond.While]) (some .While)
              (nextDepth .While depth) maxd (by simp; omega)
            rwa [List.reverse_append, List.reverse_singleton,
              List.singleton_append] at this
        · rcases hrest with ⟨hgl, hlt⟩ | ⟨hgl, rfl⟩ | ⟨hgl, rfl⟩
          · obtain ⟨d, rfl⟩ : ∃ d, active = d ++ [Cond.If] :=
              ⟨active.dropLast, getLast?_decomp active Cond.If hgl⟩
            have hrev : (d ++ [Cond.If]).reverse = Cond.If :: d.reverse := by simp
            have hdl : (d ++ [Cond.If]).dropLast = d := List.dropLast_concat ..
            have hlend : d.length + 1 ≤ m := by
              simpa using hlem
            rcases hlt with rfl | rfl
            · rw [hrev]
              simp only [balancedFrom, nextActive, hdl]
              have := ih (k + 1) (d ++ [Cond.Else]) (some .Else)
                (nextDepth .Else depth) maxd (by simp; omega)
              rwa [List.reverse_append, List.reverse_singleton,
                List.singleton_append] at this
            · rw [hrev]
              simp only [balancedFrom, nextActive, hdl]
              exact ih (k + 1) d (some .EndIf) (nextDepth .EndIf depth) maxd
                (by omega)
          · obtain ⟨d, rfl⟩ : ∃ d, active = d ++ [Cond.Else] :=
              ⟨active.dropLast, getLast?_decomp active Cond.Else hgl⟩
            have hrev : (d ++ [Cond.Else]).reverse = Cond.Else :: d.reverse := by simp
            have hdl : (d ++ [Cond.Else]).dropLast = d := List.dropLast_concat ..
            have hlend : d.length + 1 ≤ m := by simpa using hlem
            rw [hrev]
            simp only [balancedFrom, nextActive, hdl]
            exact ih (k + 1) d (some .EndIf) (nextDepth .EndIf depth) maxd (by omega)
          · obtain ⟨d, rfl⟩ : ∃ d, active = d ++ [Cond.While] :=
              ⟨active.dropLast, getLast?_decomp active Cond.While hgl⟩
            have hrev : (d ++ [Cond.While]).reverse = Cond.While :: d.reverse := by
              simp
            have hdl : (d ++ [Cond.While]).dropLast = d := List.dropLast_concat ..
            have hlend : d.length + 1 ≤ m := by simpa using hlem
            rw [hrev]
            simp only [balancedFrom, nextActive, hdl]
            exact ih (k + 1) d (some .EndWhile) (nextDepth .EndWhile depth) maxd
              (by omega)

/-- Folding the scan over the emitted closers of the open blocks only
lowers the depth, so the reported maximum stays within the starting depth
and the accumulator. -/
theorem foldl_ndStep_closers :
    ∀ (s : List Cond) (d m0 : Int),
      ((s.map pairs).foldl ndStep (d, m0)).2 ≤ max m0 d := by
  intro s
  induction s with
  | nil =>
    intro d m0
    simp only [List.map_nil, List.foldl_nil]
    omega
  | cons c s' ih =>
    intro d m0
    have hstep : ndStep (d, m0) (pairs c) = (d - 1, max (d - 1) m0) := by
      cases c <;> simp [ndStep, pairs]
    rw [List.map_cons, List.foldl_cons, hstep]
    have := ih (d - 1) (max (d - 1) m0)
    omega

/-- The nesting-depth scan of `get_lines` output, started at the depth
parameter (which tracks the open-block count) and any accumulated maximum,
never reports a maximum above `max m0 m` when every open is guarded by the
configured bound `m`. -/
theorem get_lines_depth (choice : Nat → Nat) :
    ∀ (n k : Nat) (active : List Cond) (last : Option LineType)
      (m0 m : Int),
      (active.length : Int) ≤ m →
      ((get_lines choice k n active last (active.length : Int)
          (some m)).foldl ndStep ((active.length : Int), m0)).2 ≤ max m0 m := by
  intro n
  induction n with
  | zero =>
    intro k active last m0 m hdm
    simp only [get_lines, List.foldl_nil]
    omega
  | succ m1 ih =>
    intro k active last m0 m hdm
    by_cases h1 : m1 + 1 = active.length
    · unfold get_lines
      rw [if_pos h1]
      have hz : m1 + 1 - active.length = 0 := by omega
      rw [hz]
      simp only [List.replicate_zero, List.append_nil]
      have := foldl_ndStep_closers active.reverse (active.length : Int) m0
      omega
    · by_cases h2 : m1 = 0
      · subst h2
        unfold get_lines
        rw [if_neg h1, if_pos rfl]
        have hstep : ndStep ((active.length : Int), m0) LineType.Subtask
            = ((active.length : Int), max (active.length : Int) m0) := by
          simp [ndStep]
        rw [List.foldl_cons, hstep, List.foldl_nil]
        simp only
        omega
      · obtain ⟨lt, heq, hcases⟩ :=
          get_lines_step choice k m1 active last (active.length : Int) (some m) h1 h2
        rw [heq, List.foldl_cons]
        rcases hcases with rfl | ⟨hg, hio⟩ | ⟨_, _, hrest⟩
        · have hstep : ndStep ((active.length : Int), m0) LineType.Subtask
              = ((active.length : Int), max (active.length : Int) m0) := by
            simp [ndStep]
          rw [hstep]
          simp only [nextActive, nextDepth]
          have := ih (k + 1) active (some .Subtask) (max (active.length : Int) m0)
            m hdm
          omega
        · have hlt : (active.length : Int) < m := by
            simp only [Bool.and_eq_true, decide_eq_true_eq] at hg
            exact hg.2
          rcases hio with rfl | rfl
          · have hstep : ndStep ((active.length : Int), m0) LineType.If
                = ((active.length : Int) + 1,
                   max ((active.length : Int) + 1) m0) := by
              simp [ndStep]
            rw [hstep]
            simp only [nextActive, nextDepth]
            have hcast : ((active ++ [Cond.If]).length : Int)
                = (active.length : Int) + 1 := by
              simp
            have hthis := ih (k + 1) (active ++ [Cond.If]) (some .If)
              (max ((active.length : Int) + 1) m0) m (by rw [hcast]; omega)
            rw [hcast] at hthis
            omega
          · have hstep : ndStep ((active.length : Int), m0) LineType.While
                = ((active.length : Int) + 1,
                   max ((active.length : Int) + 1) m0) := by
              simp [ndStep]
            rw [hstep]
            simp only [nextActive, nextDepth]
            have hcast : ((active ++ [Cond.While]).length : Int)
                = (active.length : Int) + 1 := by
              simp
            have hthis := ih (k + 1) (active ++ [Cond.While]) (some .While)
              (max ((active.length : Int) + 1) m0) m (by rw [hcast]; omega)
            rw [hcast] at hthis
            omega
        · rcases hrest with ⟨hgl, hlt2⟩ | ⟨hgl, rfl⟩ | ⟨hgl, rfl⟩
          · obtain ⟨d, rfl⟩ : ∃ d, active = d ++ [Cond.If] :=
              ⟨active.dropLast, getLast?_decomp active Cond.If hgl⟩
            have hdl : (d ++ [Cond.If]).dropLast = d := List.dropLast_concat ..
            have hcast : ((d ++ [Cond.If]).length : Int) = (d.length : Int) + 1 := by
              simp
            rcases hlt2 with rfl | rfl
            · have hstep : ndStep (((d ++ [Cond.If]).length : Int), m0) LineType.Else
                  = (((d ++ [Cond.If]).length : Int),
                     max (((d ++ [Cond.If]).length : Int)) m0) := by
                simp [ndStep]
              rw [hstep]
              simp only [nextActive, nextDepth, hdl]
              rw [hcast]
              have hcast2 : ((d ++ [Cond.Else]).length : Int)
                  = (d.length : Int) + 1 := by simp
              have hthis := ih (k + 1) (d ++ [Cond.Else]) (some .Else)
                (max ((d.length : Int) + 1) m0) m (by rw [hcast2]; omega)
              rw [hcast2] at hthis
              omega
            · have hstep : ndStep (((d ++ [Cond.If]).length : Int), m0) LineType.EndIf
                  = (((d ++ [Cond.If]).length : Int) - 1,
                     max (((d ++ [Cond.If]).length : Int) - 1) m0) := by
                simp [ndStep]
              rw [hstep]
              simp only [nextActive, nextDepth, hdl]
              have hcast2 : ((d ++ [Cond.If]).length : Int) - 1 = (d.length : Int) := by
                rw [hcast]; ring
              rw [hcast2]
              have hthis := ih (k + 1) d (some .EndIf) (max ((d.length : Int)) m0) m
                (by omega)
              omega
          · obtain ⟨d, rfl⟩ : ∃ d, active = d ++ [Cond.Else] :=
              ⟨active.dropLast, getLast?_decomp active Cond.Else hgl⟩
            have hdl : (d ++ [Cond.Else]).dropLast = d := List.dropLast_concat ..
            have hcast : ((d ++ [Cond.Else]).length : Int) = (d.length : Int) + 1 := by
              simp
            have hstep : ndStep (((d ++ [Cond.Else]).length : Int), m0) LineType.EndIf
                = (((d ++ [Cond.Else]).length : Int) - 1,
                   max (((d ++ [Cond.Else]).length : Int) - 1) m0) := by
              simp [ndStep]
            rw [hstep]
            simp only [nextActive, nextDepth, hdl]
            have hcast2 : ((d ++ [Cond.Else]).length : Int) - 1 = (d.length : Int) := by
              rw [hcast]; ring
            rw [hcast2]
            have hthis := ih (k + 1) d (some .EndIf) (max ((d.length : Int)) m0) m
              (by omega)
            omega
          · obtain ⟨d, rfl⟩ : ∃ d, active = d ++ [Cond.While] :=
              ⟨active.dropLast, getLast?_decomp active Cond.While hgl⟩
            have hdl : (d ++ [Cond.While]).dropLast = d := List.dropLast_concat ..
            have hcast : ((d ++ [Cond.While]).length : Int) = (d.length : Int) + 1 := by
              simp
            have hstep : ndStep (((d ++ [Cond.While]).length : Int), m0)
                LineType.EndWhile
                = (((d ++ [Cond.While]).length : Int) - 1,
                   max (((d ++ [Cond.While]).length : Int) - 1) m0) := by
              simp [ndStep]
            rw [hstep]
            simp only [nextActive, nextDepth, hdl]
            have hcast2 : ((d ++ [Cond.While]).length : Int) - 1 = (d.length : Int) := by
              rw [hcast]; ring
            rw [hcast2]
            have hthis := ih (k + 1) d (some .EndWhile) (max ((d.length : Int)) m0) m
              (by omega)
            omega

/-- Claim C7: for every target length `n`, every configured
`max_nesting_depth` and every draw sequence, the synthesized line-type
sequence has exactly `n` elements, is well-nested (every `If` closed by
exactly one matching `EndIf` with at most one `Else` in between, every
`While` by exactly one matching `EndWhile`, no crossing blocks), and its
nesting depth never exceeds the bound; `n = 0` gives the empty program and
`n = 1` the single line `Subtask`. -/
theorem c7_get_lines_well_formed (choice : Nat → Nat) (n : Nat) (m : Nat) :
    (get_lines choice 0 n [] none 0 (some (m : Int))).length = n ∧
    balancedFrom [] (get_lines choice 0 n [] none 0 (some (m : Int))) = true ∧
    get_nesting_depth (get_lines choice 0 n [] none 0 (some (m : Int)))
      ≤ (m : Int) ∧
    (n = 0 → get_lines choice 0 n [] none 0 (some (m : Int)) = []) ∧
    (n = 1 → get_lines choice 0 n [] none 0 (some (m : Int))
      = [LineType.Subtask]) := by
  refine ⟨get_lines_length choice n 0 [] none 0 (some (m : Int)), ?_, ?_, ?_, ?_⟩
  · exact get_lines_balanced choice n 0 [] none 0 (some (m : Int)) (by simp)
  · have := get_lines_depth choice n 0 [] none 0 m (by simp)
    unfold get_nesting_depth
    simp only [List.length_nil, Nat.cast_zero] at this
    omega
  · intro h
    subst h
    rfl
  · intro h
    subst h
    rfl

/-- Witness for C7 at a concrete length, depth bound and draw sequence. -/
theorem c7_witness :
    (get_lines (fun k => k + 3) 0 6 [] none 0 (some (2 : Int))).length = 6 ∧
    balancedFrom [] (get_lines (fun k => k + 3) 0 6 [] none 0 (some (2 : Int)))
      = true ∧
    get_nesting_depth (get_lines (fun k => k + 3) 0 6 [] none 0 (some (2 : Int)))
      ≤ (2 : Int) ∧
    (6 = 0 → get_lines (fun k => k + 3) 0 6 [] none 0 (some (2 : Int)) = []) ∧
    (6 = 1 → get_lines (fun k => k + 3) 0 6 [] none 0 (some (2 : Int))
      = [LineType.Subtask]) :=
  c7_get_lines_well_formed (fun k => k + 3) 6 2

/-! ### Claim C2: the transition table of a well-nested program -/

/-- `flatten` emits `sizeP p` lines. -/
theorem flatten_length : ∀ p : Prog, (flatten p).length = sizeP p := by
  intro p
  induction p with
  | nil => rfl
  | sub id r ihr => simp [flatten, sizeP, ihr]
  | if1 b r ihb ihr => simp [flatten, sizeP, ihb, ihr]; omega
  | if2 t e r iht ihe ihr => simp [flatten, sizeP, iht, ihe, ihr]; omega
  | wh b r ihb ihr => simp [flatten, sizeP, ihb, ihr]; omega

/-- `gtGo` on an exhausted iterator, whatever the fuel. -/
theorem gtGo_nil (fuel : Nat) (prev : List Nat) :
    gtGo fuel [] prev = some ([], []) := by
  cases fuel <;> rfl

/-- The unconsumed remainder a `gtGo` frame returns is part of its input. -/
theorem gtGo_rem_length :
    ∀ (fuel : Nat) (ls : List (Nat × Line)) (prev : List Nat)
      (ts : List (Nat × Nat)) (rem : List (Nat × Line)),
      gtGo fuel ls prev = some (ts, rem) → rem.length ≤ ls.length := by
  intro fuel
  induction fuel with
  | zero =>
    intro ls prev ts rem h
    cases ls with
    | nil =>
      rw [gtGo_nil] at h
      cases h
      exact Nat.le_refl 0
    | cons hd tl => cases h
  | succ fu ih =>
    intro ls prev ts rem h
    cases ls with
    | nil =>
      rw [gtGo_nil] at h
      cases h
      exact Nat.le_refl 0
    | cons hd tl =>
      obtain ⟨c, line⟩ := hd
      cases line with
      | Subtask id =>
        simp only [gtGo] at h
        obtain ⟨⟨ts1, rem1⟩, h1, h2⟩ := Option.bind_eq_some.mp h
        obtain rfl : rem = rem1 := by
          cases Option.some_inj.mp h2
          rfl
        exact Nat.le_succ_of_le (ih tl prev ts1 rem h1)
      | If =>
        simp only [gtGo] at h
        obtain ⟨⟨ts1, rem1⟩, h1, h2⟩ := Option.bind_eq_some.mp h
        obtain ⟨⟨ts2, rem2⟩, h3, h4⟩ := Option.bind_eq_some.mp h2
        obtain rfl : rem = rem2 := by
          cases Option.some_inj.mp h4
          rfl
        have hb1 := ih tl (prev ++ [c]) ts1 rem1 h1
        have hb2 := ih rem1 prev ts2 rem h3
        simp only [List.length_cons]
        omega
      | While =>
        simp only [gtGo] at h
        obtain ⟨⟨ts1, rem1⟩, h1, h2⟩ := Option.bind_eq_some.mp h
        obtain ⟨⟨ts2, rem2⟩, h3, h4⟩ := Option.bind_eq_some.mp h2
        obtain rfl : rem = rem2 := by
          cases Option.some_inj.mp h4
          rfl
        have hb1 := ih tl (prev ++ [c]) ts1 rem1 h1
        have hb2 := ih rem1 prev ts2 rem h3
        simp only [List.length_cons]
        omega
      | Else =>
        simp only [gtGo] at h
        cases hgl : prev.getLast? with
        | none =>
          rw [hgl] at h
          cases h
        | some pv =>
          rw [hgl] at h
          obtain ⟨⟨ts1, rem1⟩, h1, h2⟩ := Option.bind_eq_some.mp h
          obtain rfl : rem = rem1 := by
            cases Option.some_inj.mp h2
            rfl
          exact Nat.le_succ_of_le (ih tl (prev.dropLast ++ [c]) ts1 rem h1)
      | EndIf =>
        simp only [gtGo] at h
        cases hgl : prev.getLast? with
        | none =>
          rw [hgl] at h
          cases h
        | some pv =>
          rw [hgl] at h
          cases Option.some_inj.mp h
          exact Nat.le_succ _
      | EndWhile =>
        simp only [gtGo] at h
        cases hgl : prev.getLast? with
        | none =>
          rw [hgl] at h
          cases h
        | some pv =>
          rw [hgl] at h
          cases Option.some_inj.mp h
          exact Nat.le_succ _
      | Padding =>
        simp only [gtGo] at h
        exact Nat.le_succ_of_le (ih tl prev ts rem h)

/-- `gtGo` does not depend on the fuel once the fuel exceeds the input
length. -/
theorem gtGo_fuel_eq :
    ∀ (bound : Nat) (ls : List (Nat × Line)) (prev : List Nat) (f g : Nat),
      ls.length ≤ bound → ls.length < f → ls.length < g →
      gtGo f ls prev = gtGo g ls prev := by
  intro bound
  induction bound with
  | zero =>
    intro ls prev f g hb _ _
    rw [List.length_eq_zero.mp (by omega : ls.length = 0)]
    rw [gtGo_nil, gtGo_nil]
  | succ N ih =>
    intro ls prev f g hb hf hg
    cases ls with
    | nil => rw [gtGo_nil, gtGo_nil]
    | cons hd tl =>
      obtain ⟨c, line⟩ := hd
      obtain ⟨f1, rfl⟩ : ∃ f1, f = f1 + 1 := ⟨f - 1, by simp at hf; omega⟩
      obtain ⟨g1, rfl⟩ : ∃ g1, g = g1 + 1 := ⟨g - 1, by simp at hg; omega⟩
      have hlt : tl.length ≤ N := by simp at hb; omega
      have hltf : tl.length < f1 := by simp at hf; omega
      have hltg : tl.length < g1 := by simp at hg; omega
      cases line with
      | Subtask id =>
        simp only [gtGo]
        rw [ih tl prev f1 g1 hlt hltf hltg]
      | If =>
        simp only [gtGo]
        rw [ih tl (prev ++ [c]) f1 g1 hlt hltf hltg]
        cases h1 : gtGo g1 tl (prev ++ [c]) with
        | none => rfl
        | some r1 =>
          obtain ⟨ts1, rem1⟩ := r1
          have hr1 : rem1.length ≤ tl.length := gtGo_rem_length g1 tl _ ts1 rem1 h1
          simp only [Option.bind_eq_bind', Option.some_bind]
          rw [ih rem1 prev f1 g1 (by omega) (by omega) (by omega)]
      | While =>
        simp only [gtGo]
        rw [ih tl (prev ++ [c]) f1 g1 hlt hltf hltg]
        cases h1 : gtGo g1 tl (prev ++ [c]) with
        | none => rfl
        | some r1 =>
          obtain ⟨ts1, rem1⟩ := r1
          have hr1 : rem1.length ≤ tl.length := gtGo_rem_length g1 tl _ ts1 rem1 h1
          simp only [Option.bind_eq_bind', Option.some_bind]
          rw [ih rem1 prev f1 g1 (by omega) (by omega) (by omega)]
      | Else =>
        simp only [gtGo]
        cases hgl : prev.getLast? with
        | none => rfl
        | some pv =>
          rw [ih tl (prev.dropLast ++ [c]) f1 g1 hlt hltf hltg]
      | EndIf => rfl
      | EndWhile => rfl
      | Padding =>
        simp only [gtGo]
        exact ih tl prev f1 g1 hlt hltf hltg

/-- Processing a well-nested chunk: `gtGo` on the enumerated flattening of a
structured program followed by any rest yields exactly the predicted stream
for the chunk, leaves the `previous` stack untouched, and continues into the
rest. -/
theorem gtGo_chunk :
    ∀ (p : Prog) (i : Nat) (rest : List (Nat × Line)) (prev : List Nat)
      (fuel : Nat),
      sizeP p + rest.length < fuel →
      gtGo fuel (List.enumFrom i (flatten p) ++ rest) prev
        = (gtGo fuel rest prev).map (fun r => (streamOf i p ++ r.1, r.2)) := by
  intro p
  induction p with
  | nil =>
    intro i rest prev fuel _
    simp only [flatten, List.enumFrom_nil, List.nil_append]
    cases h : gtGo fuel rest prev with
    | none => rfl
    | some r => simp [streamOf, pairsOf]
  | sub id r ihr =>
    intro i rest prev fuel hf
    simp only [sizeP] at hf
    obtain ⟨fu, rfl⟩ : ∃ fu, fuel = fu + 1 := ⟨fuel - 1, by omega⟩
    rw [show List.enumFrom i (flatten (.sub id r)) ++ rest
        = (i, Line.Subtask id) :: (List.enumFrom (i + 1) (flatten r) ++ rest) from by
      simp [flatten]]
    simp only [gtGo]
    rw [ihr (i + 1) rest prev fu (by omega)]
    rw [gtGo_fuel_eq rest.length rest prev fu (fu + 1) le_rfl (by omega) (by omega)]
    cases h : gtGo (fu + 1) rest prev with
    | none => rfl
    | some rr =>
      obtain ⟨ts, rem⟩ := rr
      simp [streamOf, pairsOf]
  | if1 b r ihb ihr =>
    intro i rest prev fuel hf
    simp only [sizeP] at hf
    obtain ⟨fu2, rfl⟩ : ∃ fu2, fuel = fu2 + 2 := ⟨fuel - 2, by omega⟩
    have hflb := flatten_length b
    rw [show List.enumFrom i (flatten (.if1 b r)) ++ rest
        = (i, Line.If) :: (List.enumFrom (i + 1) (flatten b)
            ++ ((i + 1 + sizeP b, Line.EndIf)
                :: (List.enumFrom (i + 1 + sizeP b + 1) (flatten r) ++ rest))) from by
      simp [flatten, List.enumFrom_append, hflb]]
    simp only [gtGo]
    rw [ihb (i + 1)
      ((i + 1 + sizeP b, Line.EndIf)
        :: (List.enumFrom (i + 1 + sizeP b + 1) (flatten r) ++ rest))
      (prev ++ [i]) (fu2 + 1)
      (by simp [flatten_length]; omega)]
    rw [show gtGo (fu2 + 1)
        ((i + 1 + sizeP b, Line.EndIf)
          :: (List.enumFrom (i + 1 + sizeP b + 1) (flatten r) ++ rest))
        (prev ++ [i])
        = some ([(i + 1 + sizeP b, i + 1 + sizeP b + 1),
                 (i + 1 + sizeP b, i + 1 + sizeP b + 1),
                 (i, i + 1 + sizeP b), (i, i + 1)],
                List.enumFrom (i + 1 + sizeP b + 1) (flatten r) ++ rest) from by
      simp only [gtGo, List.getLast?_concat]]
    simp only [Option.map_some', Option.bind_eq_bind', Option.some_bind]
    rw [ihr (i + 1 + sizeP b + 1) rest prev (fu2 + 1) (by omega)]
    rw [gtGo_fuel_eq rest.length rest prev (fu2 + 1) (fu2 + 2) le_rfl (by omega)
      (by omega)]
    cases h : gtGo (fu2 + 2) rest prev with
    | none => rfl
    | some rr =>
      obtain ⟨ts, rem⟩ := rr
      simp [streamOf, pairsOf]
  | if2 t e r iht ihe ihr =>
    intro i rest prev fuel hf
    simp only [sizeP] at hf
    obtain ⟨fu3, rfl⟩ : ∃ fu3, fuel = fu3 + 3 := ⟨fuel - 3, by omega⟩
    have hflt := flatten_length t
    have hfle := flatten_length e
    rw [show List.enumFrom i (flatten (.if2 t e r)) ++ rest
        = (i, Line.If) :: (List.enumFrom (i + 1) (flatten t)
            ++ ((i + 1 + sizeP t, Line.Else)
                :: (List.enumFrom (i + 1 + sizeP t + 1) (flatten e)
                  ++ ((i + 1 + sizeP t + 1 + sizeP e, Line.EndIf)
                      :: (List.enumFrom (i + 1 + sizeP t + 1 + sizeP e + 1)
                            (flatten r) ++ rest))))) from by
      simp [flatten, List.enumFrom_append, hflt, hfle]]
    simp only [gtGo]
    rw [iht (i + 1)
      ((i + 1 + sizeP t, Line.Else)
        :: (List.enumFrom (i + 1 + sizeP t + 1) (flatten e)
          ++ ((i + 1 + sizeP t + 1 + sizeP e, Line.EndIf)
              :: (List.enumFrom (i + 1 + sizeP t + 1 + sizeP e + 1) (flatten r)
                ++ rest))))
      (prev ++ [i]) (fu3 + 2)
      (by simp [flatten_length]; omega)]
    rw [show gtGo (fu3 + 2)
        ((i + 1 + sizeP t, Line.Else)
          :: (List.enumFrom (i + 1 + sizeP t + 1) (flatten e)
            ++ ((i + 1 + sizeP t + 1 + sizeP e, Line.EndIf)
                :: (List.enumFrom (i + 1 + sizeP t + 1 + sizeP e + 1) (flatten r)
                  ++ rest))))
        (prev ++ [i])
        = (gtGo (fu3 + 1)
            (List.enumFrom (i + 1 + sizeP t + 1) (flatten e)
              ++ ((i + 1 + sizeP t + 1 + sizeP e, Line.EndIf)
                  :: (List.enumFrom (i + 1 + sizeP t + 1 + sizeP e + 1) (flatten r)
                    ++ rest)))
            (prev ++ [i + 1 + sizeP t])).map
            (fun rr => ((i, i + 1 + sizeP t) :: (i, i + 1) :: rr.1, rr.2)) from by
      simp only [gtGo, List.getLast?_concat, List.dropLast_concat]
      cases hh : gtGo (fu3 + 1)
          (List.enumFrom (i + 1 + sizeP t + 1) (flatten e)
            ++ ((i + 1 + sizeP t + 1 + sizeP e, Line.EndIf)
                :: (List.enumFrom (i + 1 + sizeP t + 1 + sizeP e + 1) (flatten r)
                  ++ rest)))
          (prev ++ [i + 1 + sizeP t]) with
      | none => rfl
      | some rr => rfl]
    rw [ihe (i + 1 + sizeP t + 1)
      ((i + 1 + sizeP t + 1 + sizeP e, Line.EndIf)
        :: (List.enumFrom (i + 1 + sizeP t + 1 + sizeP e + 1) (flatten r) ++ rest))
      (prev ++ [i + 1 + sizeP t]) (fu3 + 1)
      (by simp [flatten_length]; omega)]
    rw [show gtGo (fu3 + 1)
        ((i + 1 + sizeP t + 1 + sizeP e, Line.EndIf)
          :: (List.enumFrom (i + 1 + sizeP t + 1 + sizeP e + 1) (flatten r) ++ rest))
        (prev ++ [i + 1 + sizeP t])
        = some ([(i + 1 + sizeP t + 1 + sizeP e, i + 1 + sizeP t + 1 + sizeP e + 1),
                 (i + 1 + sizeP t + 1 + sizeP e, i + 1 + sizeP t + 1 + sizeP e + 1),
                 (i + 1 + sizeP t, i + 1 + sizeP t + 1 + sizeP e),
                 (i + 1 + sizeP t, i + 1 + sizeP t + 1)],
                List.enumFrom (i + 1 + sizeP t + 1 + sizeP e + 1) (flatten r) ++ rest)
        from by
      simp only [gtGo, List.getLast?_concat]]
    simp only [Option.map_some', Option.bind_eq_bind', Option.some_bind]
    rw [ihr (i + 1 + sizeP t + 1 + sizeP e + 1) rest prev (fu3 + 2) (by omega)]
    rw [gtGo_fuel_eq rest.length rest prev (fu3 + 2) (fu3 + 3) le_rfl (by omega)
      (by omega)]
    cases h : gtGo (fu3 + 3) rest prev with
    | none => rfl
    | some rr =>
      obtain ⟨ts, rem⟩ := rr
      simp [streamOf, pairsOf]
  | wh b r ihb ihr =>
    intro i rest prev fuel hf
    simp only [sizeP] at hf
    obtain ⟨fu2, rfl⟩ : ∃ fu2, fuel = fu2 + 2 := ⟨fuel - 2, by omega⟩
    have hflb := flatten_length b
    rw [show List.enumFrom i (flatten (.wh b r)) ++ rest
        = (i, Line.While) :: (List.enumFrom (i + 1) (flatten b)
            ++ ((i + 1 + sizeP b, Line.EndWhile)
                :: (List.enumFrom (i + 1 + sizeP b + 1) (flatten r) ++ rest))) from by
      simp [flatten, List.enumFrom_append, hflb]]
    simp only [gtGo]
    rw [ihb (i + 1)
      ((i + 1 + sizeP b, Line.EndWhile)
        :: (List.enumFrom (i + 1 + sizeP b + 1) (flatten r) ++ rest))
      (prev ++ [i]) (fu2 + 1)
      (by simp [flatten_length]; omega)]
    rw [show gtGo (fu2 + 1)
        ((i + 1 + sizeP b, Line.EndWhile)
          :: (List.enumFrom (i + 1 + sizeP b + 1) (flatten r) ++ rest))
        (prev ++ [i])
        = some ([(i, i + 1 + sizeP b + 1), (i, i + 1),
                 (i + 1 + sizeP b, i), (i + 1 + sizeP b, i)],
                List.enumFrom (i + 1 + sizeP b + 1) (flatten r) ++ rest) from by
      simp only [gtGo, List.getLast?_concat]]
    simp only [Option.map_some', Option.bind_eq_bind', Option.some_bind]
    rw [ihr (i + 1 + sizeP b + 1) rest prev (fu2 + 1) (by omega)]
    rw [gtGo_fuel_eq rest.length rest prev (fu2 + 1) (fu2 + 2) le_rfl (by omega)
      (by omega)]
    cases h : gtGo (fu2 + 2) rest prev with
    | none => rfl
    | some rr =>
      obtain ⟨ts, rem⟩ := rr
      simp [streamOf, pairsOf]

/-- The transition stream `get_transitions` computes for a well-nested
program is exactly the predicted per-block stream. -/
theorem get_transitions_flatten (p : Prog) :
    get_transitions (flatten p) = some (streamOf 0 p) := by
  unfold get_transitions
  have henum : (flatten p).enum = List.enumFrom 0 (flatten p) := rfl
  have hchunk := gtGo_chunk p 0 [] [] ((flatten p).length + 1)
    (by rw [flatten_length]; simp)
  rw [henum, show List.enumFrom 0 (flatten p) = List.enumFrom 0 (flatten p) ++ []
    from (List.append_nil _).symm, hchunk, gtGo_nil]
  simp

/-- If an owner is absent from the pair list, the dict lookup over its
stream is empty. -/
theorem lineTransitions_not_mem (L : List (Nat × Nat × Nat)) (o : Nat)
    (h : o ∉ L.map (fun q => q.1)) :
    lineTransitions (L.flatMap (fun q => [(q.1, q.2.1), (q.1, q.2.2)])) o = [] := by
  induction L with
  | nil => rfl
  | cons q tl ih =>
    obtain ⟨o1, a1, b1⟩ := q
    simp only [List.map_cons, List.mem_cons, not_or] at h
    have hne : (o1 == o) = false := by
      simp only [beq_eq_false_iff_ne, ne_eq]
      exact fun hc => h.1 hc.symm
    have htl := ih h.2
    unfold lineTransitions at htl ⊢
    simp only [List.flatMap_cons, List.cons_append, List.nil_append,
      List.filter_cons, hne, Bool.false_eq_true, if_false]
    exact htl

/-- Dict lookup over a stream of per-owner pairs with distinct owners: the
entry `(o, a, b)` yields exactly `[a, b]` — false-successor first, then
true-successor, matching the interpreter's `[evaluation]` indexing. -/
theorem lineTransitions_flatMap (L : List (Nat × Nat × Nat))
    (hnd : (L.map (fun q => q.1)).Nodup) (o a b : Nat) (h : (o, a, b) ∈ L) :
    lineTransitions (L.flatMap (fun q => [(q.1, q.2.1), (q.1, q.2.2)])) o
      = [a, b] := by
  induction L with
  | nil => cases h
  | cons q tl ih =>
    obtain ⟨o1, a1, b1⟩ := q
    simp only [List.map_cons, List.nodup_cons] at hnd
    rcases List.mem_cons.mp h with hhd | htl
    · injection hhd with ho hab
      injection hab with ha hb
      subst ho
      subst ha
      subst hb
      have hrest := lineTransitions_not_mem tl o hnd.1
      unfold lineTransitions at hrest ⊢
      simp only [List.flatMap_cons, List.cons_append, List.nil_append,
        List.filter_cons, beq_self_eq_true, if_true, List.map_cons]
      rw [show (List.filter (fun q => q.1 == o)
          (tl.flatMap (fun q => [(q.1, q.2.1), (q.1, q.2.2)]))).map
          (fun q => q.2) = [] from hrest]
    · have hne : (o1 == o) = false := by
        simp only [beq_eq_false_iff_ne, ne_eq]
        intro hc
        subst hc
        exact hnd.1 (List.mem_map.mpr ⟨(o1, a, b), htl, rfl⟩)
      have htl2 := ih hnd.2 htl
      unfold lineTransitions at htl2 ⊢
      simp only [List.flatMap_cons, List.cons_append, List.nil_append,
        List.filter_cons, hne, Bool.false_eq_true, if_false]
      exact htl2

/-- The owners of the per-line pairs of a well-nested chunk at offset `i`
form, as a multiset, exactly the index range of the chunk. -/
theorem pairsOf_owners_multiset :
    ∀ (p : Prog) (i : Nat),
      (((pairsOf i p).map (fun q => q.1) : List Nat) : Multiset Nat)
        = ((List.range' i (sizeP p) : List Nat) : Multiset Nat) := by
  intro p
  induction p with
  | nil =>
    intro i
    simp [pairsOf, sizeP]
  | sub id r ihr =>
    intro i
    simp only [pairsOf, sizeP, List.map_cons, List.range'_succ]
    simp only [← Multiset.cons_coe]
    rw [ihr (i + 1)]
  | if1 b r ihb ihr =>
    intro i
    simp only [pairsOf, sizeP, List.map_append, List.map_cons, List.map_nil]
    have htarget : List.range' i (sizeP b + sizeP r + 2)
        = i :: (List.range' (i + 1) (sizeP b)
            ++ ((i + 1 + sizeP b) :: List.range' (i + 1 + sizeP b + 1) (sizeP r)))
        := by
      have ha := List.range'_append (i + 1) (sizeP b) (sizeP r + 1) 1
      simp only [one_mul] at ha
      rw [show sizeP b + sizeP r + 2 = (sizeP r + 1 + sizeP b) + 1 from by omega,
        List.range'_succ, ← ha]
      rw [List.range'_succ]
    rw [htarget]
    simp only [← Multiset.coe_add, ← Multiset.cons_coe]
    rw [ihb (i + 1), ihr (i + 1 + sizeP b + 1)]
    simp only [← Multiset.singleton_add]
    abel
  | if2 t e r iht ihe ihr =>
    intro i
    simp only [pairsOf, sizeP, List.map_append, List.map_cons, List.map_nil]
    have htarget : List.range' i (sizeP t + sizeP e + sizeP r + 3)
        = i :: (List.range' (i + 1) (sizeP t)
            ++ ((i + 1 + sizeP t)
              :: (List.range' (i + 1 + sizeP t + 1) (sizeP e)
                ++ ((i + 1 + sizeP t + 1 + sizeP e)
                  :: List.range' (i + 1 + sizeP t + 1 + sizeP e + 1) (sizeP r)))))
        := by
      have ha := List.range'_append (i + 1) (sizeP t) (sizeP e + sizeP r + 2) 1
      simp only [one_mul] at ha
      rw [show sizeP t + sizeP e + sizeP r + 3
          = (sizeP e + sizeP r + 2 + sizeP t) + 1 from by omega,
        List.range'_succ, ← ha]
      have hb := List.range'_append (i + 1 + sizeP t + 1) (sizeP e) (sizeP r + 1) 1
      simp only [one_mul] at hb
      rw [show sizeP e + sizeP r + 2 = (sizeP r + 1 + sizeP e) + 1 from by omega,
        List.range'_succ, ← hb]
      rw [List.range'_succ]
    rw [htarget]
    simp only [← Multiset.coe_add, ← Multiset.cons_coe]
    rw [iht (i + 1), ihe (i + 1 + sizeP t + 1),
      ihr (i + 1 + sizeP t + 1 + sizeP e + 1)]
    simp only [← Multiset.singleton_add]
    abel
  | wh b r ihb ihr =>
    intro i
    simp only [pairsOf, sizeP, List.map_append, List.map_cons, List.map_nil]
    have htarget : List.range' i (sizeP b + sizeP r + 2)
        = i :: (List.range' (i + 1) (sizeP b)
            ++ ((i + 1 + sizeP b) :: List.range' (i + 1 + sizeP b + 1) (sizeP r)))
        := by
      have ha := List.range'_append (i + 1) (sizeP b) (sizeP r + 1) 1
      simp only [one_mul] at ha
      rw [show sizeP b + sizeP r + 2 = (sizeP r + 1 + sizeP b) + 1 from by omega,
        List.range'_succ, ← ha]
      rw [List.range'_succ]
    rw [htarget]
    simp only [← Multiset.coe_add, ← Multiset.cons_coe]
    rw [ihb (i + 1), ihr (i + 1 + sizeP b + 1)]
    simp only [← Multiset.singleton_add]
    abel

/-- The owners of the per-line pairs are a permutation of the index range:
the table defines the two successors of every line, exactly once each. -/
theorem pairsOf_owners_perm (p : Prog) (i : Nat) :
    ((pairsOf i p).map (fun q => q.1)).Perm (List.range' i (sizeP p)) :=
  Multiset.coe_eq_coe.mp (pairsOf_owners_multiset p i)

/-- The pair owners are distinct. -/
theorem pairsOf_owners_nodup (p : Prog) (i : Nat) :
    ((pairsOf i p).map (fun q => q.1)).Nodup :=
  (pairsOf_owners_perm p i).nodup_iff.mpr (List.nodup_range' i (sizeP p))

/-- Claim C2: for every well-nested program, `get_transitions` computes
exactly the stream of per-line successor pairs predicted by `pairsOf`
(a `Subtask` or `EndIf` advances to the next line on both branches; an `If`
branches to its matching `Else` — or `EndIf` when no `Else` exists — on
false and to the next line on true; an `Else` branches to its matching
`EndIf` on false and to the next line on true; a `While` branches past its
matching `EndWhile` on false and into its body on true; an `EndWhile`
routes to its `While` on both branches); the dict `line_transitions` built
from the stream maps each line index to its `[false-successor,
true-successor]` pair; and the pair owners cover every index of the
program exactly once. -/
theorem c2_transition_table (p : Prog) :
    get_transitions (flatten p) = some (streamOf 0 p) ∧
    (∀ o a b, (o, a, b) ∈ pairsOf 0 p →
      lineTransitions (streamOf 0 p) o = [a, b]) ∧
    ((pairsOf 0 p).map (fun q => q.1)).Perm (List.range (sizeP p)) := by
  refine ⟨get_transitions_flatten p, ?_, ?_⟩
  · intro o a b hmem
    exact lineTransitions_flatMap (pairsOf 0 p) (pairsOf_owners_nodup p 0) o a b hmem
  · have hperm := pairsOf_owners_perm p 0
    rwa [← List.range_eq_range'] at hperm

/-- Witness for C2 on the concrete program `progA`: the full stream and the
dict entry of the `If` at index 0 (false-successor its `Else` at 5,
true-successor 1). -/
theorem c2_witness :
    get_transitions (flatten progA) = some (streamOf 0 progA) ∧
    lineTransitions (streamOf 0 progA) 0 = [5, 1] :=
  ⟨(c2_transition_table progA).1,
   (c2_transition_table progA).2.1 0 5 1 (by decide)⟩

/-! ### Claim C6: the While scenario and the false-branch skip -/

/-- Membership in an enumeration determines the list entry. -/
theorem enumFrom_mem_getElem? {α : Type} :
    ∀ (l : List α) (n j : Nat) (x : α),
      (j, x) ∈ List.enumFrom n l → n ≤ j ∧ l[j - n]? = some x := by
  intro l
  induction l with
  | nil =>
    intro n j x h
    cases h
  | cons y tl ih =>
    intro n j x h
    rw [List.enumFrom_cons] at h
    rcases List.mem_cons.mp h with hhd | htl
    · injection hhd with h1 h2
      subst h1
      subst h2
      exact ⟨le_rfl, by simp⟩
    · obtain ⟨hle, hget⟩ := ih (n + 1) j x htl
      refine ⟨by omega, ?_⟩
      rw [show j - n = (j - (n + 1)) + 1 from by omega]
      simpa using hget

/-- Every `(While, matching EndWhile)` occurrence is a `While` line and an
`EndWhile` line of the flattened program, and the `While`'s successor pair
is `(EndWhile + 1, While + 1)`. -/
theorem whileOcc_spec :
    ∀ (p : Prog) (i j f : Nat), (j, f) ∈ whileOcc i p →
      (j, Line.While) ∈ List.enumFrom i (flatten p)
      ∧ (f, Line.EndWhile) ∈ List.enumFrom i (flatten p)
      ∧ (j, f + 1, j + 1) ∈ pairsOf i p := by
  intro p
  induction p with
  | nil =>
    intro i j f h
    cases h
  | sub id r ihr =>
    intro i j f h
    obtain ⟨h1, h2, h3⟩ := ihr (i + 1) j f h
    refine ⟨?_, ?_, ?_⟩
    · simp only [flatten, List.enumFrom_cons]
      exact List.mem_cons_of_mem _ h1
    · simp only [flatten, List.enumFrom_cons]
      exact List.mem_cons_of_mem _ h2
    · simp only [pairsOf]
      exact List.mem_cons_of_mem _ h3
  | if1 b r ihb ihr =>
    intro i j f h
    have hflb := flatten_length b
    have hdec : List.enumFrom i (flatten (.if1 b r))
        = (i, Line.If) :: (List.enumFrom (i + 1) (flatten b)
            ++ ((i + 1 + sizeP b, Line.EndIf)
                :: List.enumFrom (i + 1 + sizeP b + 1) (flatten r))) := by
      simp [flatten, List.enumFrom_append, hflb]
    rcases List.mem_append.mp h with hb2 | hr2
    · obtain ⟨h1, h2, h3⟩ := ihb (i + 1) j f hb2
      refine ⟨?_, ?_, ?_⟩
      · rw [hdec]
        exact List.mem_cons_of_mem _ (List.mem_append_left _ h1)
      · rw [hdec]
        exact List.mem_cons_of_mem _ (List.mem_append_left _ h2)
      · simp only [pairsOf]
        exact List.mem_append_left _ (List.mem_append_left _ h3)
    · obtain ⟨h1, h2, h3⟩ := ihr (i + 1 + sizeP b + 1) j f hr2
      refine ⟨?_, ?_, ?_⟩
      · rw [hdec]
        exact List.mem_cons_of_mem _
          (List.mem_append_right _ (List.mem_cons_of_mem _ h1))
      · rw [hdec]
        exact List.mem_cons_of_mem _
          (List.mem_append_right _ (List.mem_cons_of_mem _ h2))
      · simp only [pairsOf]
        exact List.mem_append_right _ h3
  | if2 t e r iht ihe ihr =>
    intro i j f h
    have hflt := flatten_length t
    have hfle := flatten_length e
    have hdec : List.enumFrom i (flatten (.if2 t e r))
        = (i, Line.If) :: (List.enumFrom (i + 1) (flatten t)
            ++ ((i + 1 + sizeP t, Line.Else)
                :: (List.enumFrom (i + 1 + sizeP t + 1) (flatten e)
                  ++ ((i + 1 + sizeP t + 1 + sizeP e, Line.EndIf)
                      :: List.enumFrom (i + 1 + sizeP t + 1 + sizeP e + 1)
                          (flatten r))))) := by
      simp [flatten, List.enumFrom_append, hflt, hfle]
    rcases List.mem_append.mp h with hte | hr2
    · rcases List.mem_append.mp hte with ht2 | he2
      · obtain ⟨h1, h2, h3⟩ := iht (i + 1) j f ht2
        refine ⟨?_, ?_, ?_⟩
        · rw [hdec]
          exact List.mem_cons_of_mem _ (List.mem_append_left _ h1)
        · rw [hdec]
          exact List.mem_cons_of_mem _ (List.mem_append_left _ h2)
        · simp only [pairsOf]
          refine List.mem_append_left _ ?_
          refine List.mem_append_left _ ?_
          refine List.mem_append_left _ ?_
          exact List.mem_append_left _ h3
      · obtain ⟨h1, h2, h3⟩ := ihe (i + 1 + sizeP t + 1) j f he2
        refine ⟨?_, ?_, ?_⟩
        · rw [hdec]
          exact List.mem_cons_of_mem _ (List.mem_append_right _
            (List.mem_cons_of_mem _ (List.mem_append_left _ h1)))
        · rw [hdec]
          exact List.mem_cons_of_mem _ (List.mem_append_right _
            (List.mem_cons_of_mem _ (List.mem_append_left _ h2)))
        · simp only [pairsOf]
          refine List.mem_append_left _ ?_
          refine List.mem_append_left _ ?_
          exact List.mem_append_right _ h3
    · obtain ⟨h1, h2, h3⟩ := ihr (i + 1 + sizeP t + 1 + sizeP e + 1) j f hr2
      refine ⟨?_, ?_, ?_⟩
      · rw [hdec]
        exact List.mem_cons_of_mem _ (List.mem_append_right _
          (List.mem_cons_of_mem _ (List.mem_append_right _
            (List.mem_cons_of_mem _ h1))))
      · rw [hdec]
        exact List.mem_cons_of_mem _ (List.mem_append_right _
          (List.mem_cons_of_mem _ (List.mem_append_right _
            (List.mem_cons_of_mem _ h2))))
      · simp only [pairsOf]
        exact List.mem_append_right _ h3
  | wh b r ihb ihr =>
    intro i j f h
    have hflb := flatten_length b
    have hdec : List.enumFrom i (flatten (.wh b r))
        = (i, Line.While) :: (List.enumFrom (i + 1) (flatten b)
            ++ ((i + 1 + sizeP b, Line.EndWhile)
                :: List.enumFrom (i + 1 + sizeP b + 1) (flatten r))) := by
      simp [flatten, List.enumFrom_append, hflb]
    rcases List.mem_cons.mp h with hhd | htl
    · injection hhd with h1 h2
      subst h1
      subst h2
      refine ⟨?_, ?_, ?_⟩
      · rw [hdec]
        exact List.mem_cons_self _ _
      · rw [hdec]
        exact List.mem_cons_of_mem _
          (List.mem_append_right _ (List.mem_cons_self _ _))
      · simp only [pairsOf]
        refine List.mem_append_left _ ?_
        exact List.mem_append_right _ (List.mem_cons_self _ _)
    · rcases List.mem_append.mp htl with hb2 | hr2
      · obtain ⟨h1, h2, h3⟩ := ihb (i + 1) j f hb2
        refine ⟨?_, ?_, ?_⟩
        · rw [hdec]
          exact List.mem_cons_of_mem _ (List.mem_append_left _ h1)
        · rw [hdec]
          exact List.mem_cons_of_mem _ (List.mem_append_left _ h2)
        · simp only [pairsOf]
          exact List.mem_append_left _ (List.mem_append_left _ h3)
      · obtain ⟨h1, h2, h3⟩ := ihr (i + 1 + sizeP b + 1) j f hr2
        refine ⟨?_, ?_, ?_⟩
        · rw [hdec]
          exact List.mem_cons_of_mem _
            (List.mem_append_right _ (List.mem_cons_of_mem _ h1))
        · rw [hdec]
          exact List.mem_cons_of_mem _
            (List.mem_append_right _ (List.mem_cons_of_mem _ h2))
        · simp only [pairsOf]
          exact List.mem_append_right _ h3

/-- Claim C6: driving the cursor over `[While, Subtask 1, EndWhile]` with
condition bits true, true, false yields the subtask at index 1 twice and
then the done sentinel, one condition bit per cursor advance (the first
resumption of each `next_subtask()` call carries the stale definition-time
bit, which is immaterial at a `Subtask` line); and in any well-nested
program, one resumption at a `While` whose condition is false moves control
in that single step to the line after the matching `EndWhile` — no subtask
of the body is yielded. -/
theorem c6_while_false_skips_body :
    (get_transitions linesW = some tableW ∧
     initCursor linesW tableW 10 true = some ⟨1, []⟩ ∧
     activeOf linesW ⟨1, []⟩ = some 1 ∧
     linesW[1]? = some (Line.Subtask 1) ∧
     nsAdvance linesW tableW 10 ⟨1, []⟩ true true = some ⟨1, []⟩ ∧
     nsAdvance linesW tableW 10 ⟨1, []⟩ true false = some ⟨3, []⟩ ∧
     activeOf linesW ⟨3, []⟩ = none) ∧
    (∀ (p : Prog) (j f : Nat) (evals : List Bool), (j, f) ∈ whileOcc 0 p →
      get_transitions (flatten p) = some (streamOf 0 p) ∧
      lineTransitions (streamOf 0 p) j = [f + 1, j + 1] ∧
      lgStep (flatten p) (streamOf 0 p) ⟨j, evals⟩ false = some ⟨f + 1, evals⟩) := by
  constructor
  · refine ⟨by decide, by decide, by decide, by decide, by decide, by decide,
      by decide⟩
  · intro p j f evals hmem
    obtain ⟨hw, _, hpair⟩ := whileOcc_spec p 0 j f hmem
    have hline : (flatten p)[j]? = some Line.While := by
      have := (enumFrom_mem_getElem? (flatten p) 0 j Line.While hw).2
      simpa using this
    have hdict : lineTransitions (streamOf 0 p) j = [f + 1, j + 1] :=
      lineTransitions_flatMap (pairsOf 0 p) (pairsOf_owners_nodup p 0)
        j (f + 1) (j + 1) hpair
    refine ⟨get_transitions_flatten p, hdict, ?_⟩
    unfold lgStep lgEval
    rw [hline]
    simp [hdict]

/-- Witness for C6's general part on the concrete loop program `progW`. -/
theorem c6_witness :
    get_transitions (flatten progW) = some (streamOf 0 progW) ∧
    lineTransitions (streamOf 0 progW) 0 = [3, 1] ∧
    lgStep (flatten progW) (streamOf 0 progW) ⟨0, [true]⟩ false
      = some ⟨3, [true]⟩ :=
  c6_while_false_skips_body.2 progW 0 2 [true] (by decide)

end ControlFlow
